import Mathlib

/-!
Verification of the lawbandit-chart core: text parser (lib/parse.ts),
layout adapter (lib/layout.ts), edge reattachment and diagram session
operations (app/page.tsx), and the share-link base64 pipeline
(encode64/decode64 in app/page.tsx).

Strings are modelled by Lean `String`/`List Char`; JavaScript numbers by
`Int` (only order comparisons and small integer arithmetic occur in the
verified code paths); the dagre layout library and the browser JSON
serializer are external collaborators and enter as explicit function
parameters.
-/

/-! ## Character and string utilities (JS whitespace, trim, split) -/

/-- JS whitespace class as used by the regexes in lib/parse.ts and by
String.prototype.trim (restricted to the code points the parser can
meet; all ASCII whitespace is covered). -/
def jsWs (c : Char) : Bool :=
  c = ' ' || c = '\t' || c = '\n' || c = '\r' || c = Char.ofNat 11 || c = Char.ofNat 12 || c = Char.ofNat 160

/-- Drop leading JS whitespace. -/
def trimLeft (l : List Char) : List Char := l.dropWhile jsWs

/-- Drop trailing JS whitespace. -/
def trimRight : List Char → List Char
  | [] => []
  | c :: cs =>
    match trimRight cs with
    | [] => if jsWs c then [] else [c]
    | l => c :: l

/-- JS String.prototype.trim. -/
def trimChars (l : List Char) : List Char := trimRight (trimLeft l)

/-- One step of the regex replace of /\s+/g by a single space in
normalizeLabel (lib/parse.ts line 5): every maximal whitespace run
collapses to one space. -/
def collapseWs : List Char → List Char
  | [] => []
  | [c] => if jsWs c then [' '] else [c]
  | c :: d :: cs =>
    if jsWs c && jsWs d then collapseWs (d :: cs)
    else (if jsWs c then ' ' else c) :: collapseWs (d :: cs)

/-- normalizeLabel (lib/parse.ts lines 4-6) on character lists:
s.replace of whitespace runs by single spaces, then trim. -/
def normalizeChars (l : List Char) : List Char := trimChars (collapseWs l)

/-- normalizeLabel on Lean strings. -/
def normalizeLabel (s : String) : String := String.mk (normalizeChars s.data)

/-- Split on /\r?\n/ (lib/parse.ts line 13): a newline splits, an
immediately preceding carriage return is consumed with it. -/
def splitLines : List Char → List (List Char)
  | [] => [[]]
  | '\r' :: '\n' :: cs =>
    [] :: splitLines cs
  | '\n' :: cs =>
    [] :: splitLines cs
  | c :: cs =>
    match splitLines cs with
    | [] => [[c]]
    | l :: ls => (c :: l) :: ls

/-- Split on the arrow separators of the regex /\s*(?:->|→)\s*/
(lib/parse.ts line 18).  The split is on the bare tokens; the
whitespace the regex would absorb around a token is removed by the
normalizeLabel applied to every part before use, so the resulting
label lists agree. -/
def splitArrows : List Char → List (List Char)
  | [] => [[]]
  | '-' :: '>' :: cs =>
    [] :: splitArrows cs
  | '→' :: cs =>
    [] :: splitArrows cs
  | c :: cs =>
    match splitArrows cs with
    | [] => [[c]]
    | l :: ls => (c :: l) :: ls

/-- arrows.test(line) (lib/parse.ts line 45): the line contains an
ASCII arrow or the Unicode arrow. -/
def lineHasArrow : List Char → Bool
  | [] => false
  | '-' :: '>' :: _ => true
  | '→' :: _ => true
  | _ :: cs => lineHasArrow cs

/-! ## Decimal rendering of counters

The source interpolates monotonic counters into ids (template literals
n-dollar-braces-nextNodeId in lib/parse.ts, e-counterparts, and
n-counter in app/page.tsx).  `natStr` is that decimal rendering. -/

/-- Decimal digit character. -/
def digitChar : Nat → Char
  | 0 => '0'
  | 1 => '1'
  | 2 => '2'
  | 3 => '3'
  | 4 => '4'
  | 5 => '5'
  | 6 => '6'
  | 7 => '7'
  | 8 => '8'
  | 9 => '9'
  | _ => '*'

/-- Big-endian decimal digits accumulated onto acc; fuel-driven
structural recursion (fuel at least n suffices, since n / 10
decreases strictly below 10 * fuel steps). -/
def natStrGo : Nat → Nat → List Char → List Char
  | 0, n, acc => digitChar n :: acc
  | fuel + 1, n, acc =>
    if n < 10 then digitChar n :: acc
    else natStrGo fuel (n / 10) (digitChar (n % 10) :: acc)

/-- Decimal rendering of a natural number, as a JS template literal
renders a nonnegative integer. -/
def natStr (n : Nat) : String := String.mk (natStrGo n n [])

/-- The ids a run of the node counter produces: n(start),
n(start+1), ... for k fresh nodes. -/
def idsFrom (start k : Nat) : List String :=
  (List.range k).map (fun i => "n" ++ natStr (start + i))

/-! ## Data model: reactflow nodes and edges as the source builds them -/

/-- The node fields the repository reads or writes (reactflow Node).
Absent optional fields are the defaults. -/
structure RFNode where
  id : String
  type : String
  x : Int
  y : Int
  label : String
  connectable : Bool := true
  draggable : Bool := true
  selectable : Bool := true
  selected : Bool := false
deriving Repr, DecidableEq

/-- The edge fields the repository reads or writes (reactflow Edge). -/
structure RFEdge where
  id : String
  source : String
  target : String
  type : String
  sourceHandle : Option String := none
  targetHandle : Option String := none
  label : Option String := none
  selected : Bool := false
deriving Repr, DecidableEq

/-! ## Text parser (lib/parse.ts, parseTextToDiagram) -/

/-- The mutable locals of parseTextToDiagram: the label-to-id object,
both monotonic counters, and the output arrays. -/
structure ParseState where
  idByLabel : List (String × String)
  nextNodeId : Nat
  nextEdgeId : Nat
  nodes : List RFNode
  edges : List RFEdge
deriving Repr, DecidableEq

/-- Initial parser state. -/
def initParseState : ParseState := ⟨[], 1, 1, [], []⟩

/-- ensureNode (lib/parse.ts lines 28-42): normalize the label, return
null on an empty result, otherwise look the label up and create a
fresh node (id from the monotonic counter, first-seen order) when the
label is new.  The object property test is presence, since stored ids
are never empty. -/
def ensureNode (st : ParseState) (label : String) : Option String × ParseState :=
  let lab := normalizeLabel label
  if lab = "" then (none, st)
  else
    match st.idByLabel.lookup lab with
    | some id => (some id, st)
    | none =>
      let id := "n" ++ natStr st.nextNodeId
      (some id,
        { st with
          idByLabel := st.idByLabel ++ [(lab, id)]
          nextNodeId := st.nextNodeId + 1
          nodes := st.nodes ++ [{ id := id, type := "card", x := 0, y := 0, label := lab }] })

/-- A parser-generated edge (id from the edge counter, type bezier). -/
def mkParseEdge (k : Nat) (a b : String) : RFEdge :=
  { id := "e" ++ natStr k, source := a, target := b, type := "bezier" }

/-- The inner loop of relation mode (lib/parse.ts lines 48-63): walk
the label list of one line, ensure each consecutive pair of labels and
append an edge when both ids exist. -/
def processPairs (st : ParseState) : List String → ParseState
  | a :: b :: rest =>
    let ra := ensureNode st a
    let rb := ensureNode ra.2 b
    let st3 :=
      match ra.1, rb.1 with
      | some ia, some ib =>
        { rb.2 with
          edges := rb.2.edges ++ [mkParseEdge rb.2.nextEdgeId ia ib]
          nextEdgeId := rb.2.nextEdgeId + 1 }
      | _, _ => rb.2
    processPairs st3 (b :: rest)
  | _ => st

/-- The label list of one relation-mode line:
line.split(arrows).map(normalizeLabel).filter(Boolean). -/
def relLineParts (line : List Char) : List String :=
  ((splitArrows line).map (fun p => String.mk (normalizeChars p))).filter (fun s => s ≠ "")

/-- One relation-mode line. -/
def processLine (st : ParseState) (line : List Char) : ParseState :=
  processPairs st (relLineParts line)

/-- The edge loop of sequential mode (lib/parse.ts lines 69-80): for
each consecutive pair of labels, look both up and append an edge when
both ids exist. -/
def seqEdges (st : ParseState) : List String → ParseState
  | a :: b :: rest =>
    let st2 :=
      match st.idByLabel.lookup a, st.idByLabel.lookup b with
      | some ia, some ib =>
        { st with
          edges := st.edges ++ [mkParseEdge st.nextEdgeId ia ib]
          nextEdgeId := st.nextEdgeId + 1 }
      | _, _ => st
    seqEdges st2 (b :: rest)
  | _ => st

/-- The rawLines local of parseTextToDiagram (lib/parse.ts line 13):
the trimmed input split on line breaks, each line trimmed, empty lines
dropped. -/
def parseRawLines (input : String) : List (List Char) :=
  ((splitLines (trimChars input.data)).map trimChars).filter (fun l => l ≠ [])

/-- The labels local of sequential mode (lib/parse.ts line 67). -/
def seqLabels (input : String) : List String :=
  ((parseRawLines input).map (fun l => String.mk (normalizeChars l))).filter (fun s => s ≠ "")

/-- parseTextToDiagram (lib/parse.ts lines 8-84). -/
def parseTextToDiagram (input : String) : List RFNode × List RFEdge :=
  if trimChars input.data = [] then ([], [])
  else
    let hasArrows := (parseRawLines input).any lineHasArrow
    if hasArrows then
      let final := (parseRawLines input).foldl processLine initParseState
      (final.nodes, final.edges)
    else
      if (parseRawLines input).length < 2 then ([], [])
      else
        let st1 := (seqLabels input).foldl (fun st lab => (ensureNode st lab).2) initParseState
        let final := seqEdges st1 (seqLabels input)
        (final.nodes, final.edges)

/-! ## Layout direction, sides and handle names -/

/-- Layout direction (lib/layout.ts line 5, app/page.tsx layoutDir). -/
inductive Dir
  | TB
  | LR
deriving Repr, DecidableEq

/-- Attachment face of a node box. -/
inductive Side
  | Top
  | Right
  | Bottom
  | Left
deriving Repr, DecidableEq

/-- The target-handle name NodeCard exposes for each side (the
strings written by reattachEdgesByDirection). -/
def handleOfSide : Side → String
  | Side.Top => "top_t"
  | Side.Bottom => "bottom_t"
  | Side.Left => "left_t"
  | Side.Right => "right_t"

/-! ## Edge reattachment (app/page.tsx lines 1084-1112) -/

/-- The byId lookup: new Map(nodes.map(n => [n.id, n])); on a
duplicated id the later entry overwrites the earlier, so the lookup
yields the last node with the id. -/
def findById (nodes : List RFNode) (i : String) : Option RFNode :=
  (nodes.filter (fun n => n.id == i)).getLast?

/-- reattachEdgesByDirection: for each edge whose endpoints are both
found, clear the source handle and pick the target handle from the
relative positions; otherwise return the edge unchanged. -/
def reattachEdgesByDirection (edges : List RFEdge) (nodes : List RFNode) (dir : Dir) : List RFEdge :=
  edges.map fun e =>
    match findById nodes e.source, findById nodes e.target with
    | some s, some t =>
      match dir with
      | Dir.TB =>
        { e with
          sourceHandle := none
          targetHandle := some (if t.y ≥ s.y then handleOfSide Side.Top else handleOfSide Side.Bottom) }
      | Dir.LR =>
        { e with
          sourceHandle := none
          targetHandle := some (if t.x ≥ s.x then handleOfSide Side.Left else handleOfSide Side.Right) }
    | _, _ => e

/-! ## Layout adapter (lib/layout.ts lines 10-27) -/

/-- Fixed node box width (lib/layout.ts line 7). -/
def nodeWidth : Int := 180

/-- Fixed node box height (lib/layout.ts line 8). -/
def nodeHeight : Int := 56

/-- layout (lib/layout.ts lines 10-27).  The dagre call is the
external collaborator: dagrePos stands for the center coordinates
dagre assigns to an id (g.node(id) after dagre.layout); the body is
the repository's own code around it, which registers boxes, runs
dagre, rewrites every position to the top-left convention by
subtracting half the fixed box, and returns the edges as given.  The
direction argument only configures dagre. -/
def layout (dagrePos : String → Int × Int) (nodes : List RFNode) (edges : List RFEdge) (dir : Dir) : List RFNode × List RFEdge :=
  let newNodes := nodes.map fun n =>
    { n with x := (dagrePos n.id).1 - nodeWidth / 2, y := (dagrePos n.id).2 - nodeHeight / 2 }
  (newNodes, edges)

/-! ## Diagram session state and its operations (app/page.tsx) -/

/-- The session state owned by the Diagram component: the node and
edge arrays, the monotonic node counter, the theme name and the
layout direction. -/
structure DiagramState where
  nodes : List RFNode
  edges : List RFEdge
  counter : Nat
  themeName : String
  layoutDir : Dir
deriving Repr, DecidableEq

/-- initialNodes (app/page.tsx lines 851-854). -/
def initialNodes : List RFNode :=
  [{ id := "n1", type := "card", x := 0, y := 0, label := "Start" },
   { id := "n2", type := "card", x := 220, y := 140, label := "Result" }]

/-- initialEdges (app/page.tsx lines 856-870); the style fields are
presentation only. -/
def initialEdges : List RFEdge :=
  [{ id := "e1", source := "n1", target := "n2", type := "labeled", label := some "leads to" }]

/-- The state at first mount: initial arrays, counter 3, light theme,
top-to-bottom direction. -/
def initialState : DiagramState :=
  { nodes := initialNodes, edges := initialEdges, counter := 3, themeName := "light", layoutDir := Dir.TB }

/-- A session state reachable by selecting node n1 of the initial
diagram (selection leaves the incident edge e1 unselected). -/
def cexDeleteState : DiagramState :=
  { nodes :=
      [{ id := "n1", type := "card", x := 0, y := 0, label := "Start", selected := true },
       { id := "n2", type := "card", x := 220, y := 140, label := "Result" }]
    edges := initialEdges
    counter := 3
    themeName := "light"
    layoutDir := Dir.TB }

/-- handleDeleteSelected (app/page.tsx lines 1204-1207), and equally
the Delete-key handler (lines 1050-1053): keep exactly the nodes and
the edges that are not selected. -/
def handleDeleteSelected (s : DiagramState) : DiagramState :=
  { s with
    nodes := s.nodes.filter (fun n => !n.selected)
    edges := s.edges.filter (fun e => !e.selected) }

/-- handleAddNode (app/page.tsx lines 1171-1192): append a node whose
id comes from the counter, then bump the counter. -/
def handleAddNode (s : DiagramState) : DiagramState :=
  let id := "n" ++ natStr s.counter
  { s with
    counter := s.counter + 1
    nodes := s.nodes ++
      [{ id := id, type := "card", x := 120, y := 60, label := "Node " ++ id }] }

/-- handleNodeDoubleClick rename (app/page.tsx lines 1194-1202) after
a non-null prompt: rewrite the label of every node with the id. -/
def renameNode (nodeId newLabel : String) (s : DiagramState) : DiagramState :=
  { s with
    nodes := s.nodes.map fun n => if n.id == nodeId then { n with label := newLabel } else n }

/-- A reactflow Connection. -/
structure RFConnection where
  source : String
  target : String
  sourceHandle : Option String := none
  targetHandle : Option String := none
deriving Repr, DecidableEq

/-- reactflow addEdge (external library, called by onConnect at
app/page.tsx lines 1126-1131 with type labeled): append the
connection as a new edge under reactflow's generated id unless an
edge with the same endpoints and handles already exists. -/
def rfAddEdge (conn : RFConnection) (eds : List RFEdge) : List RFEdge :=
  if eds.any (fun e =>
      e.source == conn.source && e.target == conn.target &&
      e.sourceHandle == conn.sourceHandle && e.targetHandle == conn.targetHandle) then eds
  else
    eds ++
      [{ id := "reactflow__edge-" ++ conn.source ++ conn.sourceHandle.getD "" ++ "-" ++
           conn.target ++ conn.targetHandle.getD "",
         source := conn.source, target := conn.target, type := "labeled",
         sourceHandle := conn.sourceHandle, targetHandle := conn.targetHandle }]

/-- onConnect (app/page.tsx lines 1126-1131). -/
def onConnect (conn : RFConnection) (s : DiagramState) : DiagramState :=
  { s with edges := rfAddEdge conn s.edges }

/-- handleDuplicateSelectedNode (app/page.tsx lines 1380-1420): with
exactly one selected node, append a copy at a 32-pixel offset under
the next counter id and bump the counter; when preserveEdges is on,
clone the incident edges onto the copy under fresh random ids
(edgeIdGen stands for the crypto.randomUUID calls, indexed in clone
order).  With zero or several selected nodes nothing changes. -/
def handleDuplicateSelected (edgeIdGen : Nat → String) (preserveEdges : Bool) (s : DiagramState) : DiagramState :=
  match s.nodes.filter (fun n => n.selected) with
  | [orig] =>
    let newId := "n" ++ natStr s.counter
    let newNode :=
      { orig with
        id := newId, x := orig.x + 32, y := orig.y + 32,
        label := orig.label ++ " (copy)", selected := false }
    let s1 := { s with nodes := s.nodes ++ [newNode], counter := s.counter + 1 }
    if preserveEdges then
      let incident := s.edges.filter (fun e => e.source == orig.id || e.target == orig.id)
      let clones := incident.enum.map fun ke =>
        let c := { ke.2 with id := edgeIdGen ke.1, selected := false }
        let c1 := if c.source == orig.id then { c with source := newId } else c
        if c1.target == orig.id then { c1 with target := newId } else c1
      { s1 with edges := s1.edges ++ clones }
    else s1
  | _ => s

/-- Digit value of a decimal digit character. -/
def digitVal (c : Char) : Nat := c.toNat - 48

/-- Value of a big-endian decimal digit list. -/
def digitsVal (l : List Char) : Nat := l.foldl (fun a c => 10 * a + digitVal c) 0

/-- id.replace of the first n (JS String.replace with a string
pattern replaces only the first occurrence). -/
def removeFirstN : List Char → List Char
  | [] => []
  | 'n' :: cs => cs
  | c :: cs => c :: removeFirstN cs

/-- parseInt(s) || 0: skip leading whitespace, read leading decimal
digits, and fall back to 0 when there are none (NaN is falsy). -/
def jsParseIntOr0 (l : List Char) : Nat :=
  let ds := (trimLeft l).takeWhile (fun c => '0' ≤ c && c ≤ '9')
  if ds = [] then 0 else digitsVal ds

/-- handleGenerateRun (app/page.tsx lines 1241-1265): parse the text;
on an empty node or edge list alert and change nothing; otherwise lay
the generated graph out, reattach the edges against the laid-out
nodes, and advance the counter past the largest numeric node id. -/
def handleGenerateRun (dagrePos : String → Int × Int) (text : String) (s : DiagramState) : DiagramState :=
  let gen := parseTextToDiagram text
  if gen.1.isEmpty || gen.2.isEmpty then s
  else
    let laid := layout dagrePos gen.1 gen.2 s.layoutDir
    { s with
      nodes := laid.1
      edges := reattachEdgesByDirection laid.2 laid.1 s.layoutDir
      counter := (gen.1.foldl (fun m n => max m (jsParseIntOr0 (removeFirstN n.id.data))) 0) + 1 }

/-- The Import JSON onChange handler (app/page.tsx lines 1504-1528)
on a file that passed readJSONFile validation: replace both arrays
wholesale; the counter, theme and direction are untouched. -/
def importJSONReplace (nodes : List RFNode) (edges : List RFEdge) (s : DiagramState) : DiagramState :=
  { s with nodes := nodes, edges := edges }

/-- A decoded share-link payload (app/page.tsx lines 920-932): every
field optional. -/
structure SharePayloadFields where
  nodes : Option (List RFNode) := none
  edges : Option (List RFEdge) := none
  themeName : Option String := none
  layoutDir : Option Dir := none

/-- Loading a decoded share-link payload (app/page.tsx lines
927-943): each present field replaces the state field; the counter is
untouched. -/
def loadShareLink (p : SharePayloadFields) (s : DiagramState) : DiagramState :=
  { s with
    themeName := p.themeName.getD s.themeName
    layoutDir := p.layoutDir.getD s.layoutDir
    nodes := p.nodes.getD s.nodes
    edges := p.edges.getD s.edges }

/-! ## Invariants over session states -/

/-- No two nodes of the list share an id. -/
def uniqueIds (ns : List RFNode) : Prop := (ns.map RFNode.id).Nodup

/-- Every edge endpoint references some node of the state. -/
def danglingFree (s : DiagramState) : Prop :=
  ∀ e ∈ s.edges, (∃ n ∈ s.nodes, n.id = e.source) ∧ (∃ n ∈ s.nodes, n.id = e.target)

instance decUniqueIds (ns : List RFNode) : Decidable (uniqueIds ns) := by
  unfold uniqueIds
  infer_instance

instance decDanglingFree (s : DiagramState) : Decidable (danglingFree s) := by
  unfold danglingFree
  infer_instance

/-! ## Share-link encoding (app/page.tsx lines 888-912)

TextEncoder / TextDecoder, btoa / atob and JSON.stringify /
JSON.parse are platform functions; UTF-8 and base64 are fully
specified, so they are embedded concretely (the binary string between
the byte array and btoa is a byte list: String.fromCharCode and
charCodeAt cancel).  The JSON serializer is kept as an explicit
function pair. -/

/-- UTF-8 bytes of one Unicode scalar value. -/
def utf8EncodeChar (n : Nat) : List Nat :=
  if n < 128 then [n]
  else if n < 2048 then [192 + n / 64, 128 + n % 64]
  else if n < 65536 then [224 + n / 4096, 128 + n / 64 % 64, 128 + n % 64]
  else [240 + n / 262144, 128 + n / 4096 % 64, 128 + n / 64 % 64, 128 + n % 64]

/-- TextEncoder on a string of Unicode scalar values. -/
def utf8Encode (s : List Char) : List Nat :=
  (s.map (fun c => utf8EncodeChar c.toNat)).flatten

/-- UTF-8 decoding to scalar values, fuel-driven (the fuel bounds the
number of decoded characters; the byte length suffices).  Malformed
leading bytes or continuations yield none; TextDecoder would replace
them, but the share-link path only meets output of the encoder. -/
def utf8DecodeGo : Nat → List Nat → Option (List Nat)
  | _, [] => some []
  | 0, _ :: _ => none
  | fuel + 1, b :: bs =>
    if b < 128 then (utf8DecodeGo fuel bs).map (fun r => b :: r)
    else if b < 192 then none
    else if b < 224 then
      match bs with
      | b1 :: bs1 =>
        if 128 ≤ b1 && b1 < 192 then
          (utf8DecodeGo fuel bs1).map (fun r => ((b - 192) * 64 + (b1 - 128)) :: r)
        else none
      | [] => none
    else if b < 240 then
      match bs with
      | b1 :: b2 :: bs2 =>
        if (128 ≤ b1 && b1 < 192) && (128 ≤ b2 && b2 < 192) then
          (utf8DecodeGo fuel bs2).map
            (fun r => ((b - 224) * 4096 + (b1 - 128) * 64 + (b2 - 128)) :: r)
        else none
      | _ => none
    else if b < 248 then
      match bs with
      | b1 :: b2 :: b3 :: bs3 =>
        if (128 ≤ b1 && b1 < 192) && ((128 ≤ b2 && b2 < 192) && (128 ≤ b3 && b3 < 192)) then
          (utf8DecodeGo fuel bs3).map
            (fun r => ((b - 240) * 262144 + (b1 - 128) * 4096 + (b2 - 128) * 64 + (b3 - 128)) :: r)
        else none
      | _ => none
    else none

/-- TextDecoder on a byte list, strict on the valid inputs. -/
def utf8Decode (bs : List Nat) : Option (List Nat) := utf8DecodeGo bs.length bs

/-- The standard base64 alphabet used by btoa and atob. -/
def b64Alphabet : List Char :=
  ("ABCDEFGHIJKLMNOPQRSTUVWXYZabcdefghijklmnopqrstuvwxyz0123456789+/").data

/-- Alphabet character of a sextet. -/
def b64Char (n : Nat) : Char := b64Alphabet.getD n 'A'

/-- Sextet of an alphabet character. -/
def b64Value (c : Char) : Option Nat := (b64Alphabet.zip (List.range 64)).lookup c

/-- btoa: standard base64 with padding over a byte list. -/
def b64Encode : List Nat → List Char
  | [] => []
  | [a] => [b64Char (a / 4), b64Char (a % 4 * 16), '=', '=']
  | [a, b] => [b64Char (a / 4), b64Char (a % 4 * 16 + b / 16), b64Char (b % 16 * 4), '=']
  | a :: b :: c :: rest =>
    b64Char (a / 4) :: b64Char (a % 4 * 16 + b / 16) ::
      b64Char (b % 16 * 4 + c / 64) :: b64Char (c % 64) :: b64Encode rest

/-- atob on well-formed padded base64. -/
def b64Decode : List Char → Option (List Nat)
  | [] => some []
  | [a, b, '=', '='] =>
    (b64Value a).bind fun va => (b64Value b).map fun vb =>
      [va * 4 + vb / 16]
  | [a, b, c, '='] =>
    (b64Value a).bind fun va => (b64Value b).bind fun vb => (b64Value c).map fun vc =>
      [va * 4 + vb / 16, vb % 16 * 16 + vc / 4]
  | a :: b :: c :: d :: rest =>
    (b64Value a).bind fun va => (b64Value b).bind fun vb =>
      (b64Value c).bind fun vc => (b64Value d).bind fun vd =>
        (b64Decode rest).map fun r =>
          (va * 4 + vb / 16) :: (vb % 16 * 16 + vc / 4) :: (vc % 4 * 64 + vd) :: r
  | _ => none

/-- The + to - and / to _ replacements of encode64. -/
def toUrlSafeChar (c : Char) : Char := if c = '+' then '-' else if c = '/' then '_' else c

/-- The - to + and _ to / replacements of decode64. -/
def fromUrlSafeChar (c : Char) : Char := if c = '-' then '+' else if c = '_' then '/' else c

/-- The replace of the trailing = run by the empty string. -/
def stripPad (l : List Char) : List Char := (l.reverse.dropWhile (fun c => c = '=')).reverse

/-- Number of = the re-padding while loop appends. -/
def rePadLen (n : Nat) : Nat := (4 - n % 4) % 4

/-- The while loop of decode64 padding to a multiple of four. -/
def rePad (l : List Char) : List Char := l ++ List.replicate (rePadLen l.length) '='

/-- encode64 (app/page.tsx lines 888-896) after JSON.stringify: the
UTF-8 bytes of the JSON text, standard base64, the URL-safe
replacements, and the padding stripped. -/
def encode64Str (json : String) : String :=
  String.mk (stripPad ((b64Encode (utf8Encode json.data)).map toUrlSafeChar))

/-- decode64 (app/page.tsx lines 898-912) up to JSON.parse: restore
the standard alphabet, re-pad to a multiple of four, base64-decode
and UTF-8-decode; any failure yields none, as the catch yields null. -/
def decode64Str (s : String) : Option String :=
  (b64Decode (rePad (s.data.map fromUrlSafeChar))).bind fun bytes =>
    (utf8Decode bytes).map fun cps => String.mk (cps.map Char.ofNat)

/-- encode64 (app/page.tsx lines 888-896); stringify is the platform
JSON.stringify. -/
def encode64 {α : Type} (stringify : α → String) (obj : α) : String :=
  encode64Str (stringify obj)

/-- decode64 (app/page.tsx lines 898-912); parse is the platform
JSON.parse, none on a parse error. -/
def decode64 {α : Type} (parse : String → Option α) (s : String) : Option α :=
  (decode64Str s).bind parse

/-- The share-link payload tuple built by the Copy Share Link handler
(app/page.tsx lines 1545-1547): nodes, edges, theme name, layout
direction. -/
structure SharePayload where
  nodes : List RFNode
  edges : List RFEdge
  themeName : String
  layoutDir : Dir
deriving Repr, DecidableEq

example : natStr 12 = "12" := by decide

/-! ## Supporting lemmas: whitespace normalization -/

/-- Every whitespace character of the list is a plain space. -/
def wsOnlySpace (l : List Char) : Bool := l.all (fun c => !jsWs c || c = ' ')

/-- No two adjacent whitespace characters. -/
def noWsRun : List Char → Bool
  | c :: d :: cs => !(jsWs c && jsWs d) && noWsRun (d :: cs)
  | _ => true

theorem noWsRun_tail {c : Char} {cs : List Char} (h : noWsRun (c :: cs) = true) :
    noWsRun cs = true := by
  cases cs with
  | nil => rfl
  | cons d cs =>
    simp only [noWsRun, Bool.and_eq_true] at h
    exact h.2

theorem trimRight_cons (c : Char) (cs : List Char) :
    trimRight (c :: cs) =
      match trimRight cs with
      | [] => if jsWs c then [] else [c]
      | l => c :: l := rfl

theorem collapseWs_head (c : Char) (cs : List Char) :
    ∃ t, collapseWs (c :: cs) = (if jsWs c then ' ' else c) :: t := by
  induction cs generalizing c with
  | nil => exact ⟨[], by cases hc : jsWs c <;> simp [collapseWs, hc]⟩
  | cons d cs ih =>
    cases hc : jsWs c
    · exact ⟨collapseWs (d :: cs), by simp [collapseWs, hc]⟩
    · cases hd : jsWs d
      · exact ⟨collapseWs (d :: cs), by simp [collapseWs, hc, hd]⟩
      · obtain ⟨t, ht⟩ := ih d
        refine ⟨t, ?_⟩
        rw [show collapseWs (c :: d :: cs) = collapseWs (d :: cs) by
          simp [collapseWs, hc, hd]]
        rw [ht]
        simp [hd, hc]

theorem wsOnlySpace_collapseWs (l : List Char) : wsOnlySpace (collapseWs l) = true := by
  induction l with
  | nil => decide
  | cons c cs ih =>
    cases cs with
    | nil => cases hc : jsWs c <;> simp [collapseWs, wsOnlySpace, hc]
    | cons d cs =>
      cases hc : jsWs c
      · rw [show collapseWs (c :: d :: cs) = c :: collapseWs (d :: cs) by
          simp [collapseWs, hc]]
        simp only [wsOnlySpace, List.all_cons] at ih ⊢
        simp [hc, ih]
      · cases hd : jsWs d
        · rw [show collapseWs (c :: d :: cs) = ' ' :: collapseWs (d :: cs) by
            simp [collapseWs, hc, hd]]
          simp only [wsOnlySpace, List.all_cons] at ih ⊢
          simp [ih]
        · rw [show collapseWs (c :: d :: cs) = collapseWs (d :: cs) by
            simp [collapseWs, hc, hd]]
          exact ih

theorem noWsRun_collapseWs (l : List Char) : noWsRun (collapseWs l) = true := by
  induction l with
  | nil => decide
  | cons c cs ih =>
    cases cs with
    | nil => cases hc : jsWs c <;> simp [collapseWs, noWsRun, hc]
    | cons d cs =>
      obtain ⟨t, ht⟩ := collapseWs_head d cs
      cases hc : jsWs c
      · rw [show collapseWs (c :: d :: cs) = c :: collapseWs (d :: cs) by
          simp [collapseWs, hc]]
        rw [ht] at ih ⊢
        simp only [noWsRun, Bool.and_eq_true] at ih ⊢
        simp [hc, ih]
      · cases hd : jsWs d
        · rw [show collapseWs (c :: d :: cs) = ' ' :: collapseWs (d :: cs) by
            simp [collapseWs, hc, hd]]
          rw [ht] at ih ⊢
          simp only [hd, if_neg, Bool.false_eq_true, not_false_eq_true] at ih ⊢
          simp only [noWsRun, Bool.and_eq_true] at ih ⊢
          simp [hd, ih]
        · rw [show collapseWs (c :: d :: cs) = collapseWs (d :: cs) by
            simp [collapseWs, hc, hd]]
          exact ih

theorem collapseWs_of_normal (l : List Char) (h1 : wsOnlySpace l = true)
    (h2 : noWsRun l = true) : collapseWs l = l := by
  induction l with
  | nil => rfl
  | cons c cs ih =>
    cases cs with
    | nil =>
      cases hc : jsWs c
      · simp [collapseWs, hc]
      · have hsp : c = ' ' := by
          simp only [wsOnlySpace, List.all_cons, List.all_nil, Bool.and_true,
            Bool.or_eq_true, Bool.not_eq_true] at h1
          rcases h1 with h1 | h1
          · rw [hc] at h1; cases h1
          · simpa using h1
        simp [collapseWs, hc, hsp]
    | cons d cs =>
      have htl : noWsRun (d :: cs) = true := noWsRun_tail h2
      have h1t : wsOnlySpace (d :: cs) = true := by
        simp only [wsOnlySpace, List.all_cons, Bool.and_eq_true] at h1 ⊢
        exact h1.2
      have hih := ih h1t htl
      cases hc : jsWs c
      · simp [collapseWs, hc, hih]
      · have hsp : c = ' ' := by
          simp only [wsOnlySpace, List.all_cons, Bool.and_eq_true, Bool.or_eq_true,
            Bool.not_eq_true] at h1
          rcases h1.1 with h1c | h1c
          · rw [hc] at h1c; cases h1c
          · simpa using h1c
        have hd : jsWs d = false := by
          simp only [noWsRun, Bool.and_eq_true, Bool.not_eq_true] at h2
          have := h2.1
          rw [hc] at this
          simpa using this
        simp [collapseWs, hc, hd, hsp, hih]

theorem trimRight_shape (c : Char) (cs : List Char) :
    trimRight (c :: cs) = [] ∨ ∃ t, trimRight (c :: cs) = c :: t := by
  cases h : trimRight cs with
  | nil =>
    by_cases hc : jsWs c
    · exact Or.inl (by simp [trimRight, h, hc])
    · exact Or.inr ⟨[], by simp [trimRight, h, hc]⟩
  | cons x xs => exact Or.inr ⟨x :: xs, by simp [trimRight, h]⟩

theorem noWsRun_trimRight (l : List Char) (h : noWsRun l = true) :
    noWsRun (trimRight l) = true := by
  induction l with
  | nil => decide
  | cons c cs ih =>
    have hih := ih (noWsRun_tail h)
    cases cs with
    | nil => cases hc : jsWs c <;> simp [trimRight, hc, noWsRun]
    | cons d ds =>
      rcases trimRight_shape d ds with hsh | ⟨t, hsh⟩
      · rw [trimRight_cons, hsh]
        show noWsRun (if jsWs c then [] else [c]) = true
        cases hc : jsWs c <;> simp [noWsRun]
      · rw [trimRight_cons c (d :: ds), hsh]
        show noWsRun (c :: d :: t) = true
        rw [hsh] at hih
        simp only [noWsRun, Bool.and_eq_true] at h hih ⊢
        exact ⟨h.1, hih⟩

theorem wsOnlySpace_sublist {l1 l2 : List Char} (hs : l1.Sublist l2)
    (h : wsOnlySpace l2 = true) : wsOnlySpace l1 = true := by
  simp [wsOnlySpace] at h ⊢
  intro c hc
  exact h c (hs.subset hc)

theorem trimRight_sublist (l : List Char) : (trimRight l).Sublist l := by
  induction l with
  | nil => simp [trimRight]
  | cons c cs ih =>
    cases h : trimRight cs with
    | nil =>
      by_cases hc : jsWs c
      · simp [trimRight, h, hc]
      · simp [trimRight, h, hc]
    | cons x xs =>
      rw [show trimRight (c :: cs) = c :: trimRight cs by simp [trimRight, h]]
      exact ih.cons₂ c

theorem trimChars_sublist (l : List Char) : (trimChars l).Sublist l :=
  (trimRight_sublist (trimLeft l)).trans (List.dropWhile_sublist jsWs)

theorem noWsRun_dropWhile (l : List Char) (h : noWsRun l = true) :
    noWsRun (l.dropWhile jsWs) = true := by
  induction l with
  | nil => decide
  | cons c cs ih =>
    by_cases hc : jsWs c
    · rw [List.dropWhile_cons_of_pos (by simp [hc])]
      exact ih (noWsRun_tail h)
    · rwa [List.dropWhile_cons_of_neg (by simp [hc])]

theorem trimRight_idem (l : List Char) : trimRight (trimRight l) = trimRight l := by
  induction l with
  | nil => rfl
  | cons c cs ih =>
    cases h : trimRight cs with
    | nil =>
      rw [trimRight_cons, h]
      show trimRight (if jsWs c then [] else [c]) = if jsWs c then [] else [c]
      cases hc : jsWs c <;> simp [trimRight, hc]
    | cons x xs =>
      rw [trimRight_cons, h]
      show trimRight (c :: x :: xs) = c :: x :: xs
      rw [h] at ih
      rw [trimRight_cons, ih]

theorem dropWhile_head_not (p : Char → Bool) (l : List Char) :
    ∀ c cs, l.dropWhile p = c :: cs → p c = false := by
  induction l with
  | nil => intro c cs h; simp at h
  | cons a as ih =>
    intro c cs h
    cases ha : p a
    · rw [List.dropWhile_cons_of_neg (by simp [ha])] at h
      obtain rfl : a = c := (List.cons.injEq .. ▸ h).1
      exact ha
    · rw [List.dropWhile_cons_of_pos (by simp [ha])] at h
      exact ih c cs h

theorem trimLeft_trimRight_trimLeft (l : List Char) :
    trimLeft (trimRight (trimLeft l)) = trimRight (trimLeft l) := by
  cases hl : trimLeft l with
  | nil => simp [trimRight, trimLeft]
  | cons c cs =>
    have hc : jsWs c = false := dropWhile_head_not jsWs l c cs hl
    rcases trimRight_shape c cs with hsh | ⟨t, hsh⟩
    · rw [hsh]; rfl
    · rw [hsh]
      exact List.dropWhile_cons_of_neg (by simp [hc])

theorem trimChars_idem (l : List Char) : trimChars (trimChars l) = trimChars l := by
  unfold trimChars
  rw [trimLeft_trimRight_trimLeft l, trimRight_idem]

theorem normalizeChars_idem (l : List Char) :
    normalizeChars (normalizeChars l) = normalizeChars l := by
  unfold normalizeChars
  have h1 : wsOnlySpace (trimChars (collapseWs l)) = true :=
    wsOnlySpace_sublist (trimChars_sublist _) (wsOnlySpace_collapseWs l)
  have h2 : noWsRun (trimChars (collapseWs l)) = true := by
    unfold trimChars
    exact noWsRun_trimRight _ (noWsRun_dropWhile _ (noWsRun_collapseWs l))
  rw [collapseWs_of_normal _ h1 h2]
  exact trimChars_idem _

theorem normalizeLabel_idem (s : String) :
    normalizeLabel (normalizeLabel s) = normalizeLabel s := by
  simp [normalizeLabel, normalizeChars_idem]

theorem natStrGo_append (fuel : Nat) : ∀ (n : Nat) (acc : List Char),
    natStrGo fuel n acc = natStrGo fuel n [] ++ acc := by
  induction fuel with
  | zero => intro n acc; simp [natStrGo]
  | succ f ih =>
    intro n acc
    by_cases h : n < 10
    · simp [natStrGo, h]
    · simp only [natStrGo, if_neg h]
      rw [ih (n / 10) (digitChar (n % 10) :: acc), ih (n / 10) [digitChar (n % 10)]]
      simp

theorem digitVal_digitChar : ∀ d, d < 10 → digitVal (digitChar d) = d := by decide

theorem digitsVal_append_single (xs : List Char) (c : Char) :
    digitsVal (xs ++ [c]) = 10 * digitsVal xs + digitVal c := by
  simp [digitsVal, List.foldl_append]

theorem digitsVal_natStrGo (fuel : Nat) : ∀ n, n ≤ fuel → digitsVal (natStrGo fuel n []) = n := by
  induction fuel with
  | zero =>
    intro n hn
    have h0 : n = 0 := by omega
    subst h0
    decide
  | succ f ih =>
    intro n hn
    by_cases h : n < 10
    · simp only [natStrGo, if_pos h, digitsVal, List.foldl]
      have := digitVal_digitChar n h
      omega
    · simp only [natStrGo, if_neg h]
      rw [natStrGo_append, digitsVal_append_single, ih (n / 10) (by omega),
        digitVal_digitChar (n % 10) (by omega)]
      omega

theorem natStr_inj {m n : Nat} (h : natStr m = natStr n) : m = n := by
  have hl : natStrGo m m [] = natStrGo n n [] := congrArg String.data h
  have h1 := digitsVal_natStrGo m m le_rfl
  have h2 := digitsVal_natStrGo n n le_rfl
  rw [hl] at h1
  omega

theorem append_natStr_inj {p : String} {m n : Nat} (h : p ++ natStr m = p ++ natStr n) :
    m = n := by
  apply natStr_inj
  have hd : p.data ++ (natStr m).data = p.data ++ (natStr n).data := by
    have := congrArg String.data h
    simpa using this
  have : (natStr m).data = (natStr n).data := List.append_cancel_left hd
  cases hm : natStr m with
  | mk dm =>
    cases hn : natStr n with
    | mk dn =>
      rw [hm, hn] at this
      simpa [hm, hn] using congrArg String.mk this
example : normalizeLabel "  a   b " = "a b" := by decide
example : relLineParts ("A -> B -> C".data) = ["A", "B", "C"] := by decide
example : lineHasArrow ("A → B".data) = true := by decide
example :
    parseTextToDiagram "A -> B" =
      ([{ id := "n1", type := "card", x := 0, y := 0, label := "A" },
        { id := "n2", type := "card", x := 0, y := 0, label := "B" }],
       [{ id := "e1", source := "n1", target := "n2", type := "bezier" }]) := by decide

/-! ## Supporting lemmas: association-list lookups -/

theorem lookup_none_not_mem {l : List (String × String)} {k : String}
    (h : l.lookup k = none) : k ∉ l.map Prod.fst := by
  induction l with
  | nil => simp
  | cons p l ih =>
    cases p with
    | mk a b =>
      by_cases hk : k = a
      · subst hk
        simp [List.lookup] at h
      · intro hm
        have hb : (k == a) = false := by simp [hk]
        simp only [List.lookup, hb] at h
        rcases List.mem_cons.mp hm with hm | hm
        · exact hk hm
        · exact ih h hm

theorem lookup_mem {l : List (String × String)} {k v : String}
    (h : l.lookup k = some v) : (k, v) ∈ l := by
  induction l with
  | nil => simp [List.lookup] at h
  | cons p l ih =>
    cases p with
    | mk a b =>
      by_cases hk : k = a
      · subst hk
        simp only [List.lookup, beq_self_eq_true, if_pos] at h
        obtain rfl : b = v := by simpa using h
        exact List.mem_cons_self _ _
      · have hb : (k == a) = false := by simp [hk]
        simp only [List.lookup, hb] at h
        exact List.mem_cons_of_mem _ (ih h)

/-! ## Supporting lemmas: the parser state invariant -/

/-- Invariant of the parser state: the node array mirrors the label
map in order, every stored id is the decimal id of a counter value
below the node counter, and labels and ids are duplicate free. -/
structure ParseInv (st : ParseState) : Prop where
  nodesMatch : st.nodes.map (fun n => (n.label, n.id)) = st.idByLabel
  idsShape : ∀ p ∈ st.idByLabel, ∃ k, k < st.nextNodeId ∧ p.2 = "n" ++ natStr k
  labelsNodup : (st.idByLabel.map Prod.fst).Nodup
  idsNodup : (st.idByLabel.map Prod.snd).Nodup

theorem parseInv_init : ParseInv initParseState :=
  ⟨rfl, by simp [initParseState], by simp [initParseState], by simp [initParseState]⟩

theorem ensureNode_empty {st : ParseState} {l : String} (h : normalizeLabel l = "") :
    ensureNode st l = (none, st) := by
  simp [ensureNode, h]

theorem ensureNode_found {st : ParseState} {l i : String} (h : ¬ normalizeLabel l = "")
    (hl : st.idByLabel.lookup (normalizeLabel l) = some i) :
    ensureNode st l = (some i, st) := by
  simp [ensureNode, h, hl]

theorem ensureNode_new {st : ParseState} {l : String} (h : ¬ normalizeLabel l = "")
    (hl : st.idByLabel.lookup (normalizeLabel l) = none) :
    ensureNode st l =
      (some ("n" ++ natStr st.nextNodeId),
       { st with
         idByLabel := st.idByLabel ++ [(normalizeLabel l, "n" ++ natStr st.nextNodeId)]
         nextNodeId := st.nextNodeId + 1
         nodes := st.nodes ++
           [{ id := "n" ++ natStr st.nextNodeId, type := "card", x := 0, y := 0,
              label := normalizeLabel l }] }) := by
  simp [ensureNode, h, hl]

theorem ensureNode_inv {st : ParseState} (hst : ParseInv st) (l : String) :
    ParseInv (ensureNode st l).2 := by
  by_cases h : normalizeLabel l = ""
  · rw [ensureNode_empty h]
    exact hst
  · cases hl : st.idByLabel.lookup (normalizeLabel l) with
    | some i =>
      rw [ensureNode_found h hl]
      exact hst
    | none =>
      rw [ensureNode_new h hl]
      dsimp only
      refine ⟨?_, ?_, ?_, ?_⟩
      · simp [List.map_append, hst.nodesMatch]
      · intro p hp
        rcases List.mem_append.mp hp with hp | hp
        · obtain ⟨k, hk, hk2⟩ := hst.idsShape p hp
          refine ⟨k, ?_, hk2⟩
          show k < st.nextNodeId + 1
          omega
        · obtain rfl : p = (normalizeLabel l, "n" ++ natStr st.nextNodeId) := by
            simpa using hp
          refine ⟨st.nextNodeId, ?_, rfl⟩
          show st.nextNodeId < st.nextNodeId + 1
          omega
      · rw [List.map_append]
        rw [List.nodup_append]
        refine ⟨hst.labelsNodup, by simp, ?_⟩
        intro x hx
        simp only [List.map_cons, List.map_nil, List.mem_singleton]
        intro hc
        subst hc
        exact (lookup_none_not_mem hl) hx
      · rw [List.map_append]
        rw [List.nodup_append]
        refine ⟨hst.idsNodup, by simp, ?_⟩
        intro x hx
        simp only [List.map_cons, List.map_nil, List.mem_singleton]
        intro hc
        subst hc
        obtain ⟨p, hp, hp2⟩ := List.mem_map.mp hx
        obtain ⟨k, hk, hk2⟩ := hst.idsShape p hp
        rw [hp2] at hk2
        have := append_natStr_inj hk2.symm
        omega

theorem ensureNode_lookup_mono {st : ParseState} {x i : String}
    (h : st.idByLabel.lookup x = some i) (l : String) :
    (ensureNode st l).2.idByLabel.lookup x = some i := by
  by_cases he : normalizeLabel l = ""
  · rw [ensureNode_empty he]
    exact h
  · cases hl : st.idByLabel.lookup (normalizeLabel l) with
    | some j =>
      rw [ensureNode_found he hl]
      exact h
    | none =>
      rw [ensureNode_new he hl]
      simp [List.lookup_append, h]

theorem ensureNode_result {st : ParseState} {l : String} (h : ¬ normalizeLabel l = "") :
    ∃ i, (ensureNode st l).1 = some i ∧
      (ensureNode st l).2.idByLabel.lookup (normalizeLabel l) = some i := by
  cases hl : st.idByLabel.lookup (normalizeLabel l) with
  | some i =>
    refine ⟨i, ?_, ?_⟩
    · rw [ensureNode_found h hl]
    · rw [ensureNode_found h hl]
      exact hl
  | none =>
    refine ⟨"n" ++ natStr st.nextNodeId, ?_, ?_⟩
    · rw [ensureNode_new h hl]
    · rw [ensureNode_new h hl]
      simp [List.lookup_append, hl, List.lookup]

theorem ensureNode_edges (st : ParseState) (l : String) :
    (ensureNode st l).2.edges = st.edges ∧ (ensureNode st l).2.nextEdgeId = st.nextEdgeId := by
  by_cases h : normalizeLabel l = ""
  · rw [ensureNode_empty h]
    exact ⟨rfl, rfl⟩
  · cases hl : st.idByLabel.lookup (normalizeLabel l) with
    | some i =>
      rw [ensureNode_found h hl]
      exact ⟨rfl, rfl⟩
    | none =>
      rw [ensureNode_new h hl]
      exact ⟨rfl, rfl⟩

/-- One unfolding step of processPairs on a line with two or more
remaining labels. -/
theorem processPairs_cons2 (st : ParseState) (a b : String) (rest : List String) :
    processPairs st (a :: b :: rest) =
      processPairs
        (match (ensureNode st a).1, (ensureNode (ensureNode st a).2 b).1 with
         | some ia, some ib =>
           { (ensureNode (ensureNode st a).2 b).2 with
             edges := (ensureNode (ensureNode st a).2 b).2.edges ++
               [mkParseEdge (ensureNode (ensureNode st a).2 b).2.nextEdgeId ia ib]
             nextEdgeId := (ensureNode (ensureNode st a).2 b).2.nextEdgeId + 1 }
         | _, _ => (ensureNode (ensureNode st a).2 b).2)
        (b :: rest) := rfl

theorem parseInv_addEdge {st : ParseState} (h : ParseInv st) (ia ib : String) :
    ParseInv { st with
      edges := st.edges ++ [mkParseEdge st.nextEdgeId ia ib]
      nextEdgeId := st.nextEdgeId + 1 } :=
  ⟨h.nodesMatch, h.idsShape, h.labelsNodup, h.idsNodup⟩

theorem processPairs_inv (parts : List String) :
    ∀ st, ParseInv st → ParseInv (processPairs st parts) := by
  induction parts with
  | nil => exact fun st h => h
  | cons a t ih =>
    intro st h
    cases t with
    | nil => exact h
    | cons b rest =>
      rw [processPairs_cons2]
      apply ih
      have h1 := ensureNode_inv h a
      have h2 := ensureNode_inv h1 b
      cases (ensureNode st a).1 with
      | none => exact h2
      | some ia =>
        cases (ensureNode (ensureNode st a).2 b).1 with
        | none => exact h2
        | some ib => exact parseInv_addEdge h2 ia ib

theorem processPairs_lookup_mono (parts : List String) :
    ∀ st (x i : String), st.idByLabel.lookup x = some i →
      (processPairs st parts).idByLabel.lookup x = some i := by
  induction parts with
  | nil => exact fun st x i h => h
  | cons a t ih =>
    intro st x i h
    cases t with
    | nil => exact h
    | cons b rest =>
      rw [processPairs_cons2]
      apply ih
      have h1 := ensureNode_lookup_mono h a
      have h2 := ensureNode_lookup_mono h1 b
      cases (ensureNode st a).1 with
      | none => exact h2
      | some ia =>
        cases (ensureNode (ensureNode st a).2 b).1 with
        | none => exact h2
        | some ib => exact h2

/-! ## Supporting lemmas: relation-mode chains -/

theorem relLineParts_norm (line : List Char) :
    ∀ p ∈ relLineParts line, normalizeLabel p = p ∧ ¬ p = "" := by
  intro p hp
  simp only [relLineParts, List.mem_filter, List.mem_map] at hp
  obtain ⟨⟨q, hq, rfl⟩, hne⟩ := hp
  refine ⟨?_, by simpa using hne⟩
  simp [normalizeLabel, normalizeChars_idem]

theorem processPairs_step (st : ParseState) {a b : String} (rest : List String)
    (ha : ¬ normalizeLabel a = "") (hb : ¬ normalizeLabel b = "") :
    ∃ ia ib st2,
      processPairs st (a :: b :: rest) = processPairs st2 (b :: rest) ∧
      st2.edges.map (fun e => (e.source, e.target)) =
        st.edges.map (fun e => (e.source, e.target)) ++ [(ia, ib)] ∧
      st2.idByLabel.lookup (normalizeLabel a) = some ia ∧
      st2.idByLabel.lookup (normalizeLabel b) = some ib := by
  obtain ⟨ia, hia1, hia2⟩ := @ensureNode_result st a ha
  obtain ⟨ib, hib1, hib2⟩ := @ensureNode_result (ensureNode st a).2 b hb
  have hia3 := ensureNode_lookup_mono hia2 b
  refine ⟨ia, ib,
    { (ensureNode (ensureNode st a).2 b).2 with
      edges := (ensureNode (ensureNode st a).2 b).2.edges ++
        [mkParseEdge (ensureNode (ensureNode st a).2 b).2.nextEdgeId ia ib]
      nextEdgeId := (ensureNode (ensureNode st a).2 b).2.nextEdgeId + 1 },
    ?_, ?_, ?_, ?_⟩
  · rw [processPairs_cons2]
    simp only [hia1, hib1]
  · have he1 : (ensureNode (ensureNode st a).2 b).2.edges = st.edges := by
      rw [(ensureNode_edges (ensureNode st a).2 b).1, (ensureNode_edges st a).1]
    dsimp only
    rw [he1, List.map_append]
    simp [mkParseEdge]
  · exact hia3
  · exact hib2

theorem processPairs_edges :
    ∀ (parts : List String), (∀ p ∈ parts, normalizeLabel p = p ∧ ¬ p = "") →
    ∀ st,
      (processPairs st parts).edges.map (fun e => (e.source, e.target)) =
        st.edges.map (fun e => (e.source, e.target)) ++
          (parts.zip parts.tail).map (fun ab =>
            (((processPairs st parts).idByLabel.lookup ab.1).getD "",
             ((processPairs st parts).idByLabel.lookup ab.2).getD "")) := by
  intro parts
  induction parts with
  | nil => intro hp st; simp [processPairs]
  | cons a t ih =>
    cases t with
    | nil => intro hp st; simp [processPairs]
    | cons b rest =>
      intro hp st
      have hpa := hp a (by simp)
      have hpb := hp b (by simp)
      have hna : ¬ normalizeLabel a = "" := by rw [hpa.1]; exact hpa.2
      have hnb : ¬ normalizeLabel b = "" := by rw [hpb.1]; exact hpb.2
      obtain ⟨ia, ib, st2, hstep, hedges, hla, hlb⟩ := processPairs_step st rest hna hnb
      rw [hpa.1] at hla
      rw [hpb.1] at hlb
      have hp2 : ∀ p ∈ b :: rest, normalizeLabel p = p ∧ ¬ p = "" :=
        fun p hq => hp p (List.mem_cons_of_mem _ hq)
      have hfa : (processPairs st2 (b :: rest)).idByLabel.lookup a = some ia :=
        processPairs_lookup_mono (b :: rest) st2 a ia hla
      have hfb : (processPairs st2 (b :: rest)).idByLabel.lookup b = some ib :=
        processPairs_lookup_mono (b :: rest) st2 b ib hlb
      rw [hstep]
      rw [ih hp2 st2]
      simp only [List.tail_cons, List.zip_cons_cons, List.map_cons]
      rw [hfa, hfb, hedges]
      simp

/-- C4: parsing "A -> B -> C" yields exactly the three nodes A, B, C
and the two chained edges A to B and B to C, never an A to C edge; in
general, relation-mode processing of one line appends exactly the
consecutive pairs of the line's label list, one edge per adjacent
pair, so k labels give k - 1 edges and never a clique. -/
theorem C4_relation_chain :
    (parseTextToDiagram "A -> B -> C" =
      ([{ id := "n1", type := "card", x := 0, y := 0, label := "A" },
        { id := "n2", type := "card", x := 0, y := 0, label := "B" },
        { id := "n3", type := "card", x := 0, y := 0, label := "C" }],
       [{ id := "e1", source := "n1", target := "n2", type := "bezier" },
        { id := "e2", source := "n2", target := "n3", type := "bezier" }])) ∧
    ((parseTextToDiagram "A -> B -> C").2.filter
        (fun e => e.source == "n1" && e.target == "n3") = []) ∧
    (∀ (st : ParseState) (line : List Char),
      (processLine st line).edges.map (fun e => (e.source, e.target)) =
        st.edges.map (fun e => (e.source, e.target)) ++
          ((relLineParts line).zip (relLineParts line).tail).map (fun ab =>
            (((processLine st line).idByLabel.lookup ab.1).getD "",
             ((processLine st line).idByLabel.lookup ab.2).getD "")) ∧
      ((relLineParts line).zip (relLineParts line).tail).length =
        (relLineParts line).length - 1) := by
  refine ⟨by decide, by decide, ?_⟩
  intro st line
  constructor
  · exact processPairs_edges (relLineParts line) (relLineParts_norm line) st
  · rw [List.length_zip, List.length_tail]
    omega

/-! ## Supporting lemmas: the parse output has duplicate-free labels and ids -/

theorem foldl_processLine_inv (lines : List (List Char)) :
    ∀ st, ParseInv st → ParseInv (lines.foldl processLine st) := by
  induction lines with
  | nil => exact fun st h => h
  | cons l ls ih => exact fun st h => ih _ (processPairs_inv _ _ h)

theorem foldl_ensureNode_inv (labels : List String) :
    ∀ st, ParseInv st → ParseInv (labels.foldl (fun st lab => (ensureNode st lab).2) st) := by
  induction labels with
  | nil => exact fun st h => h
  | cons a t ih => exact fun st h => ih _ (ensureNode_inv h a)

theorem seqEdges_cons2 (st : ParseState) (a b : String) (rest : List String) :
    seqEdges st (a :: b :: rest) =
      seqEdges
        (match st.idByLabel.lookup a, st.idByLabel.lookup b with
         | some ia, some ib =>
           { st with
             edges := st.edges ++ [mkParseEdge st.nextEdgeId ia ib]
             nextEdgeId := st.nextEdgeId + 1 }
         | _, _ => st)
        (b :: rest) := rfl

theorem seqEdges_fields (labels : List String) :
    ∀ st, (seqEdges st labels).idByLabel = st.idByLabel ∧
      (seqEdges st labels).nodes = st.nodes ∧
      (seqEdges st labels).nextNodeId = st.nextNodeId := by
  induction labels with
  | nil => exact fun st => ⟨rfl, rfl, rfl⟩
  | cons a t ih =>
    intro st
    cases t with
    | nil => exact ⟨rfl, rfl, rfl⟩
    | cons b rest =>
      rw [seqEdges_cons2]
      cases h1 : st.idByLabel.lookup a <;> cases h2 : st.idByLabel.lookup b <;>
        simp only [h1, h2] <;>
        exact ⟨(ih _).1.trans rfl, (ih _).2.1.trans rfl, (ih _).2.2.trans rfl⟩

theorem seqEdges_inv {st : ParseState} (h : ParseInv st) (labels : List String) :
    ParseInv (seqEdges st labels) := by
  obtain ⟨hm, hn, hc⟩ := seqEdges_fields labels st
  exact ⟨by rw [hm, hn]; exact h.nodesMatch,
         by rw [hm, hc]; exact h.idsShape,
         by rw [hm]; exact h.labelsNodup,
         by rw [hm]; exact h.idsNodup⟩

theorem parse_out_inv (input : String) :
    ∃ st, ParseInv st ∧ (parseTextToDiagram input).1 = st.nodes ∧
      (parseTextToDiagram input).2 = st.edges := by
  simp only [parseTextToDiagram]
  split
  · exact ⟨initParseState, parseInv_init, rfl, rfl⟩
  · split
    · exact ⟨_, foldl_processLine_inv _ _ parseInv_init, rfl, rfl⟩
    · split
      · exact ⟨initParseState, parseInv_init, rfl, rfl⟩
      · exact ⟨_, seqEdges_inv (foldl_ensureNode_inv _ _ parseInv_init) _, rfl, rfl⟩

theorem parse_nodes_nodup (input : String) :
    ((parseTextToDiagram input).1.map RFNode.label).Nodup ∧
    ((parseTextToDiagram input).1.map RFNode.id).Nodup := by
  obtain ⟨st, hinv, hn, _⟩ := parse_out_inv input
  rw [hn]
  constructor
  · have := congrArg (List.map Prod.fst) hinv.nodesMatch
    simp only [List.map_map] at this
    rw [show (Prod.fst ∘ fun n : RFNode => (n.label, n.id)) = RFNode.label from rfl] at this
    rw [this]
    exact hinv.labelsNodup
  · have := congrArg (List.map Prod.snd) hinv.nodesMatch
    simp only [List.map_map] at this
    rw [show (Prod.snd ∘ fun n : RFNode => (n.label, n.id)) = RFNode.id from rfl] at this
    rw [this]
    exact hinv.idsNodup

/-- C6: equal normalized labels resolve to one node with one id; in
the concrete test, parsing "A -> B\nA -> C" yields exactly three
nodes and both edges carry the single id of A as their source; in
general, the node list of any parse has duplicate-free labels and
duplicate-free ids, so a normalized label owns exactly one node. -/
theorem C6_label_dedup :
    (parseTextToDiagram "A -> B\nA -> C" =
      ([{ id := "n1", type := "card", x := 0, y := 0, label := "A" },
        { id := "n2", type := "card", x := 0, y := 0, label := "B" },
        { id := "n3", type := "card", x := 0, y := 0, label := "C" }],
       [{ id := "e1", source := "n1", target := "n2", type := "bezier" },
        { id := "e2", source := "n1", target := "n3", type := "bezier" }])) ∧
    ((parseTextToDiagram "A -> B\nA -> C").2.map RFEdge.source = ["n1", "n1"]) ∧
    (∀ input : String,
      ((parseTextToDiagram input).1.map RFNode.label).Nodup ∧
      ((parseTextToDiagram input).1.map RFNode.id).Nodup) :=
  ⟨by decide, by decide, parse_nodes_nodup⟩

/-! ## Supporting lemmas: lines without enough labels -/

theorem lineHasArrow_cons_eq (c : Char) (cs : List Char)
    (h1 : ∀ cs2, c = '-' → cs = '>' :: cs2 → False)
    (h2 : ¬ c = '→') : lineHasArrow (c :: cs) = lineHasArrow cs := by
  rw [lineHasArrow.eq_def]
  split
  · rename_i heq
    simp at heq
  · rename_i tail heq
    rw [List.cons.injEq] at heq
    exact absurd heq.2 (fun hh => h1 tail heq.1 hh)
  · rename_i tail heq
    rw [List.cons.injEq] at heq
    exact absurd heq.1 h2
  · rename_i head cs2 ha hb heq
    rw [List.cons.injEq] at heq
    rw [heq.2]

theorem splitArrows_cons_eq (c : Char) (cs : List Char)
    (h1 : ∀ cs2, c = '-' → cs = '>' :: cs2 → False)
    (h2 : ¬ c = '→') :
    splitArrows (c :: cs) =
      match splitArrows cs with
      | [] => [[c]]
      | l :: ls => (c :: l) :: ls := by
  rw [splitArrows.eq_def]
  split
  · rename_i heq
    simp at heq
  · rename_i tail heq
    rw [List.cons.injEq] at heq
    exact absurd heq.2 (fun hh => h1 tail heq.1 hh)
  · rename_i tail heq
    rw [List.cons.injEq] at heq
    exact absurd heq.1 h2
  · rename_i head cs2 ha hb heq
    rw [List.cons.injEq] at heq
    rw [heq.1, heq.2]

theorem splitArrows_no_arrow (line : List Char) (h : lineHasArrow line = false) :
    splitArrows line = [line] := by
  induction line using splitArrows.induct with
  | case1 => rfl
  | case2 cs ih => rw [lineHasArrow.eq_def] at h; simp at h
  | case3 cs ih => rw [lineHasArrow.eq_def] at h; simp at h
  | case4 c cs h1 h2 hsp ih =>
    rw [lineHasArrow_cons_eq c cs h1 h2] at h
    rw [ih h] at hsp
    exact absurd hsp (by simp)
  | case5 c cs h1 h2 l ls hsp ih =>
    rw [lineHasArrow_cons_eq c cs h1 h2] at h
    rw [splitArrows_cons_eq c cs h1 h2, ih h]

/-- C10: a relation-mode line whose arrow-split yields fewer than two
nonempty labels leaves the parser state unchanged, so no node and no
edge of the output comes from it; dropping all such lines from the
line fold leaves the result unchanged; and a line containing no arrow
at all always yields at most one label. -/
theorem C10_short_lines_dropped :
    (∀ (st : ParseState) (line : List Char),
      (relLineParts line).length < 2 → processLine st line = st) ∧
    (∀ line : List Char, lineHasArrow line = false → (relLineParts line).length ≤ 1) ∧
    (∀ (pre post : List (List Char)) (line : List Char) (st : ParseState),
      (relLineParts line).length < 2 →
      (pre ++ line :: post).foldl processLine st = (pre ++ post).foldl processLine st) := by
  have hdrop : ∀ (st : ParseState) (line : List Char),
      (relLineParts line).length < 2 → processLine st line = st := by
    intro st line hlen
    unfold processLine
    cases h : relLineParts line with
    | nil => rfl
    | cons a t =>
      cases t with
      | nil => rfl
      | cons b r =>
        rw [h] at hlen
        simp only [List.length_cons] at hlen
        omega
  refine ⟨hdrop, ?_, ?_⟩
  · intro line h
    have : relLineParts line =
        ([String.mk (normalizeChars line)]).filter (fun s => s ≠ "") := by
      unfold relLineParts
      rw [splitArrows_no_arrow line h]
      rfl
    rw [this]
    exact (List.length_filter_le _ _)
  · intro pre post line st hlen
    rw [List.foldl_append, List.foldl_append, List.foldl_cons, hdrop _ line hlen]

/-- Witness for C10 at a concrete no-arrow line. -/
theorem C10_short_lines_dropped_witness :
    processLine initParseState ("hello".data) = initParseState ∧
    (relLineParts ("hello".data)).length ≤ 1 :=
  ⟨C10_short_lines_dropped.1 initParseState ("hello".data) (by decide),
   C10_short_lines_dropped.2.1 ("hello".data) (by decide)⟩

/-- C9: reattachment is idempotent: with unchanged nodes and
direction, a second pass returns exactly the edges of the first, so
all source-handle and target-side assignments agree. -/
theorem C9_reattach_idempotent (edges : List RFEdge) (nodes : List RFNode) (dir : Dir) :
    reattachEdgesByDirection (reattachEdgesByDirection edges nodes dir) nodes dir =
      reattachEdgesByDirection edges nodes dir := by
  unfold reattachEdgesByDirection
  rw [List.map_map]
  apply List.map_congr_left
  intro e _
  simp only [Function.comp]
  cases hs : findById nodes e.source with
  | none => simp [hs]
  | some s =>
    cases ht : findById nodes e.target with
    | none => simp [hs, ht]
    | some t => cases dir <;> simp [hs, ht]

/-- C3: reattachment recomputes each edge with both endpoints found:
the source handle is cleared and in top-to-bottom mode the target
side is Top exactly when the target y is at least the source y (else
Bottom), in left-to-right mode Left exactly when the target x is at
least the source x (else Right); an edge with a missing endpoint
passes through unchanged. -/
theorem C3_reattach_rule (edges : List RFEdge) (nodes : List RFNode) (dir : Dir) :
    List.Forall₂
      (fun e o =>
        (∀ s t, findById nodes e.source = some s → findById nodes e.target = some t →
          o.sourceHandle = none ∧
          (dir = Dir.TB →
            ((o.targetHandle = some (handleOfSide Side.Top) ↔ s.y ≤ t.y) ∧
             (o.targetHandle = some (handleOfSide Side.Bottom) ↔ t.y < s.y))) ∧
          (dir = Dir.LR →
            ((o.targetHandle = some (handleOfSide Side.Left) ↔ s.x ≤ t.x) ∧
             (o.targetHandle = some (handleOfSide Side.Right) ↔ t.x < s.x)))) ∧
        ((findById nodes e.source = none ∨ findById nodes e.target = none) → o = e))
      edges (reattachEdgesByDirection edges nodes dir) := by
  have hTB : handleOfSide Side.Top ≠ handleOfSide Side.Bottom := by decide
  have hLR : handleOfSide Side.Left ≠ handleOfSide Side.Right := by decide
  induction edges with
  | nil => exact List.Forall₂.nil
  | cons e es ih =>
    refine List.Forall₂.cons ?_ ih
    cases hs0 : findById nodes e.source with
    | none =>
      refine ⟨?_, ?_⟩
      · intro s t hs ht
        cases hs
      · intro _
        simp [reattachEdgesByDirection, hs0]
    | some s0 =>
      cases ht0 : findById nodes e.target with
      | none =>
        refine ⟨?_, ?_⟩
        · intro s t hs ht
          cases ht
        · intro _
          simp [reattachEdgesByDirection, hs0, ht0]
      | some t0 =>
        refine ⟨?_, ?_⟩
        · intro s t hs ht
          obtain rfl : s0 = s := by simpa using hs
          obtain rfl : t0 = t := by simpa using ht
          simp only [reattachEdgesByDirection, hs0, ht0]
          cases dir with
          | TB =>
            refine ⟨?_, ?_, ?_⟩
            · by_cases hyy : s0.y ≤ t0.y
              · rw [if_pos (show t0.y ≥ s0.y from hyy)]
              · rw [if_neg (show ¬ t0.y ≥ s0.y from hyy)]
            · intro _
              by_cases hyy : s0.y ≤ t0.y
              · rw [if_pos (show t0.y ≥ s0.y from hyy)]
                exact ⟨iff_of_true rfl hyy,
                  iff_of_false (fun hc => hTB (Option.some.inj hc)) (by omega)⟩
              · rw [if_neg (show ¬ t0.y ≥ s0.y from hyy)]
                exact ⟨iff_of_false (fun hc => hTB (Option.some.inj hc).symm) hyy,
                  iff_of_true rfl (by omega)⟩
            · intro hd
              cases hd
          | LR =>
            refine ⟨?_, ?_, ?_⟩
            · by_cases hxx : s0.x ≤ t0.x
              · rw [if_pos (show t0.x ≥ s0.x from hxx)]
              · rw [if_neg (show ¬ t0.x ≥ s0.x from hxx)]
            · intro hd
              cases hd
            · intro _
              by_cases hxx : s0.x ≤ t0.x
              · rw [if_pos (show t0.x ≥ s0.x from hxx)]
                exact ⟨iff_of_true rfl hxx,
                  iff_of_false (fun hc => hLR (Option.some.inj hc)) (by omega)⟩
              · rw [if_neg (show ¬ t0.x ≥ s0.x from hxx)]
                exact ⟨iff_of_false (fun hc => hLR (Option.some.inj hc).symm) hxx,
                  iff_of_true rfl (by omega)⟩
        · intro hmiss
          rcases hmiss with hm | hm
          · cases hm
          · cases hm

/-- Witness for C3 at the initial diagram in top-to-bottom mode. -/
theorem C3_reattach_rule_witness :
    List.Forall₂
      (fun e o =>
        (∀ s t, findById initialNodes e.source = some s →
          findById initialNodes e.target = some t →
          o.sourceHandle = none ∧
          (Dir.TB = Dir.TB →
            ((o.targetHandle = some (handleOfSide Side.Top) ↔ s.y ≤ t.y) ∧
             (o.targetHandle = some (handleOfSide Side.Bottom) ↔ t.y < s.y))) ∧
          (Dir.TB = Dir.LR →
            ((o.targetHandle = some (handleOfSide Side.Left) ↔ s.x ≤ t.x) ∧
             (o.targetHandle = some (handleOfSide Side.Right) ↔ t.x < s.x)))) ∧
        ((findById initialNodes e.source = none ∨ findById initialNodes e.target = none) →
          o = e))
      initialEdges (reattachEdgesByDirection initialEdges initialNodes Dir.TB) :=
  C3_reattach_rule initialEdges initialNodes Dir.TB

/-- C7: layout only rewrites positions: the returned edges are the
input edges, the node list keeps its length and order, every non
position field of every node is unchanged, and the position becomes
the dagre center shifted by half the fixed box. -/
theorem C7_layout_frame (dagrePos : String → Int × Int) (nodes : List RFNode)
    (edges : List RFEdge) (dir : Dir) :
    (layout dagrePos nodes edges dir).2 = edges ∧
    (layout dagrePos nodes edges dir).1.length = nodes.length ∧
    List.Forall₂
      (fun n o =>
        o.id = n.id ∧ o.type = n.type ∧ o.label = n.label ∧
        o.connectable = n.connectable ∧ o.draggable = n.draggable ∧
        o.selectable = n.selectable ∧ o.selected = n.selected ∧
        o.x = (dagrePos n.id).1 - nodeWidth / 2 ∧ o.y = (dagrePos n.id).2 - nodeHeight / 2)
      nodes (layout dagrePos nodes edges dir).1 := by
  refine ⟨rfl, by simp [layout], ?_⟩
  induction nodes with
  | nil => exact List.Forall₂.nil
  | cons n ns ih =>
    exact List.Forall₂.cons ⟨rfl, rfl, rfl, rfl, rfl, rfl, rfl, rfl, rfl⟩ ih

/-! ## C1: deletion and incident edges -/

/-- C1 fails on the code: deleting the selected node n1 keeps the
unselected incident edge e1, whose source then references the removed
id n1 (handleDeleteSelected filters nodes and edges only on their own
selected flags and never prunes incident edges). -/
theorem C1_counterexample :
    ("n1" ∈ cexDeleteState.nodes.map RFNode.id) ∧
    ("n1" ∉ (handleDeleteSelected cexDeleteState).nodes.map RFNode.id) ∧
    (∃ e ∈ (handleDeleteSelected cexDeleteState).edges, e.source = "n1") := by decide

/-- C1 amended: delete-selected keeps exactly the unselected nodes
and unselected edges, so an unselected edge incident to a deleted
node survives as a dangling edge; when the state has no dangling
edge and every unselected edge touches only unselected nodes (for
instance when all incident edges of the deleted nodes are selected
with them), no dangling edge remains after deletion. -/
theorem C1_amended_delete (s : DiagramState)
    (hfree : danglingFree s)
    (hsel : ∀ e ∈ s.edges, e.selected = false →
      ∀ n ∈ s.nodes, (n.id = e.source ∨ n.id = e.target) → n.selected = false) :
    danglingFree (handleDeleteSelected s) := by
  intro e he
  obtain ⟨he1, hesel⟩ : e ∈ s.edges ∧ e.selected = false := by
    simpa [handleDeleteSelected, List.mem_filter] using he
  obtain ⟨⟨ns, hns, hns2⟩, ⟨nt, hnt, hnt2⟩⟩ := hfree e he1
  refine ⟨⟨ns, ?_, hns2⟩, ⟨nt, ?_, hnt2⟩⟩
  · have hu := hsel e he1 hesel ns hns (Or.inl hns2)
    simp [handleDeleteSelected, List.mem_filter, hns, hu]
  · have hu := hsel e he1 hesel nt hnt (Or.inr hnt2)
    simp [handleDeleteSelected, List.mem_filter, hnt, hu]

/-- Witness for the amended C1 at the initial state. -/
theorem C1_amended_delete_witness : danglingFree (handleDeleteSelected initialState) :=
  C1_amended_delete initialState (by decide) (by decide)

/-! ## C2: node-id uniqueness across session operations -/

/-- C2 fails on the code: the Import JSON handler replaces the node
array wholesale after a validation that only checks that the arrays
exist, so a file repeating a node id yields a state with duplicate
ids; the counter is also left untouched, so the state desynchronizes
further. -/
theorem C2_counterexample :
    uniqueIds initialState.nodes ∧
    ¬ uniqueIds (importJSONReplace
      [{ id := "a", type := "card", x := 0, y := 0, label := "X" },
       { id := "a", type := "card", x := 0, y := 0, label := "Y" }] [] initialState).nodes := by
  decide

theorem renameNode_ids (nodeId newLabel : String) (s : DiagramState) :
    (renameNode nodeId newLabel s).nodes.map RFNode.id = s.nodes.map RFNode.id := by
  unfold renameNode
  rw [List.map_map]
  apply List.map_congr_left
  intro n _
  by_cases hn : n.id = nodeId <;> simp [hn]

theorem layout_ids (dagrePos : String → Int × Int) (nodes : List RFNode)
    (edges : List RFEdge) (dir : Dir) :
    (layout dagrePos nodes edges dir).1.map RFNode.id = nodes.map RFNode.id := by
  unfold layout
  rw [List.map_map]
  apply List.map_congr_left
  intro n _
  rfl

/-- C2 amended: delete, rename and connect always preserve node-id
uniqueness; add-node and duplicate preserve it whenever the id built
from the counter is fresh; generate-from-text always yields
duplicate-free ids; replacing the state from an import or a share
link preserves uniqueness only when the incoming node array itself
has no duplicate id (nothing validates this, see the
counterexample). -/
theorem C2_amended_unique_ids (s : DiagramState) (h : uniqueIds s.nodes) :
    uniqueIds (handleDeleteSelected s).nodes ∧
    (∀ nodeId newLabel, uniqueIds (renameNode nodeId newLabel s).nodes) ∧
    (∀ conn, uniqueIds (onConnect conn s).nodes) ∧
    (("n" ++ natStr s.counter) ∉ s.nodes.map RFNode.id →
      uniqueIds (handleAddNode s).nodes) ∧
    (∀ gen preserve, ("n" ++ natStr s.counter) ∉ s.nodes.map RFNode.id →
      uniqueIds (handleDuplicateSelected gen preserve s).nodes) ∧
    (∀ dagrePos text, uniqueIds (handleGenerateRun dagrePos text s).nodes) ∧
    (∀ ns es, uniqueIds ns → uniqueIds (importJSONReplace ns es s).nodes) ∧
    (∀ p, uniqueIds (p.nodes.getD s.nodes) → uniqueIds (loadShareLink p s).nodes) := by
  refine ⟨?_, ?_, ?_, ?_, ?_, ?_, ?_, ?_⟩
  · have hsub : ((s.nodes.filter (fun n => !n.selected)).map RFNode.id).Sublist
        (s.nodes.map RFNode.id) := (List.filter_sublist _).map RFNode.id
    exact h.sublist hsub
  · intro nodeId newLabel
    unfold uniqueIds
    rw [renameNode_ids]
    exact h
  · intro conn
    exact h
  · intro hfresh
    unfold uniqueIds handleAddNode
    rw [List.map_append, List.nodup_append]
    exact ⟨h, by simp, by
      intro x hx
      simp only [List.map_cons, List.map_nil, List.mem_singleton]
      intro hc
      subst hc
      exact hfresh hx⟩
  · intro gen preserve hfresh
    unfold handleDuplicateSelected
    cases hsel : s.nodes.filter (fun n => n.selected) with
    | nil => exact h
    | cons orig t =>
      cases t with
      | cons o2 t2 => exact h
      | nil =>
        have hu : uniqueIds (s.nodes ++
            [{ orig with
                id := "n" ++ natStr s.counter, x := orig.x + 32, y := orig.y + 32,
                label := orig.label ++ " (copy)", selected := false }]) := by
          unfold uniqueIds
          rw [List.map_append, List.nodup_append]
          exact ⟨h, by simp, by
            intro x hx
            simp only [List.map_cons, List.map_nil, List.mem_singleton]
            intro hc
            subst hc
            exact hfresh hx⟩
        cases preserve
        · exact hu
        · exact hu
  · intro dagrePos text
    simp only [handleGenerateRun]
    cases hemp : (parseTextToDiagram text).1.isEmpty || (parseTextToDiagram text).2.isEmpty
    · simp only [hemp, Bool.false_eq_true, if_false]
      unfold uniqueIds
      rw [layout_ids]
      exact (parse_nodes_nodup text).2
    · simp only [hemp, if_true]
      exact h
  · intro ns es hns
    exact hns
  · intro p hp
    exact hp

/-- Witness for the amended C2 at the initial state. -/
theorem C2_amended_unique_ids_witness :
    uniqueIds (handleDeleteSelected initialState).nodes ∧
    uniqueIds (handleAddNode initialState).nodes :=
  ⟨(C2_amended_unique_ids initialState (by decide)).1,
   (C2_amended_unique_ids initialState (by decide)).2.2.2.1 (by decide)⟩

/-! ## C5: sequential mode -/

theorem trimRight_eq_nil_all_ws (l : List Char) (h : trimRight l = []) :
    ∀ c ∈ l, jsWs c = true := by
  induction l with
  | nil => simp
  | cons c cs ih =>
    rw [trimRight_cons] at h
    cases hcs : trimRight cs with
    | cons x xs =>
      rw [hcs] at h
      simp at h
    | nil =>
      rw [hcs] at h
      cases hc : jsWs c with
      | false =>
        rw [if_neg (by simp [hc])] at h
        simp at h
      | true =>
        intro x hx
        rcases List.mem_cons.mp hx with rfl | hx2
        · exact hc
        · exact ih hcs x hx2

theorem trimChars_eq_nil_all_ws (l : List Char) (h : trimChars l = []) :
    ∀ c ∈ l, jsWs c = true := by
  intro c hc
  have hsplit : List.takeWhile jsWs l ++ List.dropWhile jsWs l = l := by
    rw [List.takeWhile_append_dropWhile]
  rw [← hsplit] at hc
  rcases List.mem_append.mp hc with hc | hc
  · exact List.mem_takeWhile_imp hc
  · exact trimRight_eq_nil_all_ws _ h c hc

theorem mem_collapseWs_of_not_ws {c : Char} (hns : jsWs c = false) :
    ∀ l, c ∈ l → c ∈ collapseWs l := by
  intro l
  induction l with
  | nil => simp
  | cons a cs ih =>
    intro hc
    cases cs with
    | nil =>
      rcases List.mem_cons.mp hc with rfl | h2
      · simp [collapseWs, hns]
      · simp at h2
    | cons d ds =>
      rcases List.mem_cons.mp hc with rfl | h2
      · rw [show collapseWs (c :: d :: ds) = c :: collapseWs (d :: ds) by
          simp [collapseWs, hns]]
        exact List.mem_cons_self _ _
      · cases had : (jsWs a && jsWs d) with
        | true =>
          rw [show collapseWs (a :: d :: ds) = collapseWs (d :: ds) by
            simp [collapseWs, had]]
          exact ih h2
        | false =>
          rw [show collapseWs (a :: d :: ds) =
              (if jsWs a then ' ' else a) :: collapseWs (d :: ds) by
            simp [collapseWs, had]]
          exact List.mem_cons_of_mem _ (ih h2)

theorem trimChars_nil_of_all_ws (l : List Char) (h : ∀ c ∈ l, jsWs c = true) :
    trimChars l = [] := by
  unfold trimChars trimLeft
  rw [List.dropWhile_eq_nil_iff.mpr h]
  rfl

theorem normalizeChars_ne_nil {l : List Char} (h : ¬ trimChars l = []) :
    ¬ normalizeChars l = [] := by
  intro hn
  have hex : ∃ c ∈ l, jsWs c = false := by
    by_contra hall
    push_neg at hall
    refine h (trimChars_nil_of_all_ws l (fun c hc => ?_))
    cases hjs : jsWs c with
    | false => exact absurd hjs (hall c hc)
    | true => rfl
  obtain ⟨c, hc, hcw⟩ := hex
  have hmem : c ∈ collapseWs l := mem_collapseWs_of_not_ws hcw l hc
  have := trimChars_eq_nil_all_ws (collapseWs l) hn c hmem
  rw [hcw] at this
  cases this

theorem seqLabels_eq_map (input : String) :
    seqLabels input = (parseRawLines input).map (fun l => String.mk (normalizeChars l)) := by
  unfold seqLabels
  rw [List.filter_eq_self]
  intro s hs
  obtain ⟨l, hl, rfl⟩ := List.mem_map.mp hs
  have hlne : ¬ l = [] ∧ ∃ l0, l = trimChars l0 := by
    unfold parseRawLines at hl
    simp only [List.mem_filter, List.mem_map] at hl
    obtain ⟨⟨l0, hl0, rfl⟩, hne⟩ := hl
    exact ⟨by simpa using hne, l0, rfl⟩
  obtain ⟨hne, l0, rfl⟩ := hlne
  have hnn : ¬ normalizeChars (trimChars l0) = [] := by
    apply normalizeChars_ne_nil
    rw [trimChars_idem]
    exact hne
  simpa using fun hc => hnn (congrArg String.data hc)

theorem seqLabels_norm (input : String) :
    ∀ p ∈ seqLabels input, normalizeLabel p = p ∧ ¬ p = "" := by
  intro p hp
  simp only [seqLabels, List.mem_filter, List.mem_map] at hp
  obtain ⟨⟨q, hq, rfl⟩, hne⟩ := hp
  refine ⟨?_, by simpa using hne⟩
  simp [normalizeLabel, normalizeChars_idem]

theorem idsFrom_length (start k : Nat) : (idsFrom start k).length = k := by
  simp [idsFrom]

theorem idsFrom_succ (start k : Nat) :
    idsFrom start (k + 1) = ("n" ++ natStr start) :: idsFrom (start + 1) k := by
  unfold idsFrom
  rw [List.range_succ_eq_map]
  simp only [List.map_cons, List.map_map]
  congr 1
  apply List.map_congr_left
  intro i _
  simp only [Function.comp]
  congr 2
  omega

theorem foldl_ensure_build (labels : List String) :
    ∀ st, (∀ l ∈ labels, normalizeLabel l = l ∧ ¬ l = "") → labels.Nodup →
      (∀ l ∈ labels, st.idByLabel.lookup l = none) →
      (labels.foldl (fun s lab => (ensureNode s lab).2) st).idByLabel =
          st.idByLabel ++ labels.zip (idsFrom st.nextNodeId labels.length) ∧
      (labels.foldl (fun s lab => (ensureNode s lab).2) st).nodes =
          st.nodes ++ (labels.zip (idsFrom st.nextNodeId labels.length)).map
            (fun p => { id := p.2, type := "card", x := 0, y := 0, label := p.1 }) ∧
      (labels.foldl (fun s lab => (ensureNode s lab).2) st).edges = st.edges := by
  induction labels with
  | nil =>
    intro st hnorm hnd hnone
    simp [idsFrom]
  | cons a t ih =>
    intro st hnorm hnd hnone
    have hna := hnorm a (by simp)
    have hnorm1 : ¬ normalizeLabel a = "" := by
      rw [hna.1]
      exact hna.2
    have hlook : st.idByLabel.lookup (normalizeLabel a) = none := by
      rw [hna.1]
      exact hnone a (by simp)
    have hens2 : (ensureNode st a).2 =
        { st with
          idByLabel := st.idByLabel ++ [(normalizeLabel a, "n" ++ natStr st.nextNodeId)]
          nextNodeId := st.nextNodeId + 1
          nodes := st.nodes ++
            [{ id := "n" ++ natStr st.nextNodeId, type := "card", x := 0, y := 0,
               label := normalizeLabel a }] } := by
      rw [ensureNode_new hnorm1 hlook]
    simp only [List.foldl_cons]
    rw [hens2]
    have hmem : a ∉ t := (List.nodup_cons.mp hnd).1
    obtain ⟨hmap, hnodes, hedges⟩ := ih
      { st with
        idByLabel := st.idByLabel ++ [(normalizeLabel a, "n" ++ natStr st.nextNodeId)]
        nextNodeId := st.nextNodeId + 1
        nodes := st.nodes ++
          [{ id := "n" ++ natStr st.nextNodeId, type := "card", x := 0, y := 0,
             label := normalizeLabel a }] }
      (fun l hl => hnorm l (List.mem_cons_of_mem _ hl))
      (List.nodup_cons.mp hnd).2
      (by
        intro l hl
        show (st.idByLabel ++ [(normalizeLabel a, "n" ++ natStr st.nextNodeId)]).lookup l = none
        rw [List.lookup_append, hnone l (List.mem_cons_of_mem _ hl)]
        have hla : ¬ (l == normalizeLabel a) = true := by
          rw [hna.1]
          simp only [beq_iff_eq]
          intro hc
          subst hc
          exact hmem hl
        have hlb : (l == normalizeLabel a) = false := by
          cases hbe : l == normalizeLabel a
          · rfl
          · exact absurd hbe hla
        simp only [List.lookup, Option.none_or, hlb])
    refine ⟨?_, ?_, ?_⟩
    · rw [hmap]
      try dsimp only
      rw [hna.1]
      simp only [List.length_cons, idsFrom_succ, List.zip_cons_cons, List.append_assoc,
        List.singleton_append]
    · rw [hnodes]
      try dsimp only
      rw [hna.1]
      simp only [List.length_cons, idsFrom_succ, List.zip_cons_cons, List.map_cons,
        List.append_assoc, List.singleton_append]
    · rw [hedges]

theorem zip_lookup_forall2 (labels : List String) :
    ∀ (ids : List String) (base : List (String × String)), labels.Nodup →
      ids.length = labels.length →
      (∀ l ∈ labels, base.lookup l = none) →
      List.Forall₂ (fun l i => (base ++ labels.zip ids).lookup l = some i) labels ids := by
  induction labels with
  | nil =>
    intro ids base _ hlen _
    cases ids with
    | nil => exact List.Forall₂.nil
    | cons i is => simp at hlen
  | cons a t ih =>
    intro ids base hnd hlen hnone
    cases ids with
    | nil => simp at hlen
    | cons ia ids2 =>
      have hassoc : base ++ (a :: t).zip (ia :: ids2) =
          (base ++ [(a, ia)]) ++ t.zip ids2 := by
        simp [List.zip_cons_cons]
      rw [hassoc]
      refine List.Forall₂.cons ?_ ?_
      · rw [List.lookup_append, List.lookup_append, hnone a (by simp)]
        simp [List.lookup]
      · refine ih ids2 (base ++ [(a, ia)]) (List.nodup_cons.mp hnd).2 (by simpa using hlen) ?_
        intro l hl
        rw [List.lookup_append, hnone l (List.mem_cons_of_mem _ hl)]
        have hlb : (l == a) = false := by
          cases hbe : l == a
          · rfl
          · exfalso
            have hla : l = a := by simpa using hbe
            subst hla
            exact (List.nodup_cons.mp hnd).1 hl
        simp only [List.lookup, Option.none_or, hlb]

theorem seqEdges_chain (labels : List String) :
    ∀ (ids : List String) (st : ParseState),
      List.Forall₂ (fun l i => st.idByLabel.lookup l = some i) labels ids →
      (seqEdges st labels).edges.map (fun e => (e.source, e.target)) =
        st.edges.map (fun e => (e.source, e.target)) ++ ids.zip ids.tail := by
  induction labels with
  | nil =>
    intro ids st hf
    cases hf
    simp [seqEdges]
  | cons a t ih =>
    intro ids st hf
    cases hf with
    | cons ha hf2 =>
      rename_i ia ids2
      cases t with
      | nil =>
        cases hf2
        simp [seqEdges]
      | cons b rest =>
        cases hf2 with
        | cons hb hf3 =>
          rename_i ib ids3
          rw [seqEdges_cons2]
          simp only [ha, hb]
          rw [ih (ib :: ids3)
            { st with
              edges := st.edges ++ [mkParseEdge st.nextEdgeId ia ib]
              nextEdgeId := st.nextEdgeId + 1 }
            (List.Forall₂.cons hb hf3)]
          simp [mkParseEdge, List.zip_cons_cons]

theorem parse_seq_short (input : String)
    (hnoarrow : (parseRawLines input).any lineHasArrow = false)
    (hlen : (parseRawLines input).length < 2) :
    parseTextToDiagram input = ([], []) := by
  by_cases htext : trimChars input.data = []
  · simp only [parseTextToDiagram]
    rw [if_pos htext]
  · simp only [parseTextToDiagram]
    rw [if_neg htext]
    simp only [hnoarrow, Bool.false_eq_true, if_false]
    rw [if_pos hlen]

/-- C5 fails on the code as universally stated: two non-empty lines
with the same normalized text collapse to one node and the connecting
edge becomes a self-loop, so not every line becomes its own node. -/
theorem C5_counterexample :
    ((parseRawLines "A\nA").length = 2) ∧
    ((parseRawLines "A\nA").any lineHasArrow = false) ∧
    ((parseTextToDiagram "A\nA").1.length = 1) ∧
    ((parseTextToDiagram "A\nA").2.map (fun e => (e.source, e.target)) = [("n1", "n1")]) := by
  decide

/-- C5 amended: in sequential mode (no line contains an arrow, at
least two non-empty trimmed lines) with pairwise distinct normalized
line labels, every line becomes one node in order (the node labels
are exactly the normalized lines), and the edges form the single
chain of consecutive node pairs, k - 1 edges for k lines; with
fewer than two such lines the parser returns the empty graph without
raising. -/
theorem C5_sequential_chain (input : String)
    (hnoarrow : (parseRawLines input).any lineHasArrow = false)
    (hlen : 2 ≤ (parseRawLines input).length)
    (hnd : (seqLabels input).Nodup) :
    (parseTextToDiagram input).1.map RFNode.label = seqLabels input ∧
    seqLabels input = (parseRawLines input).map (fun l => String.mk (normalizeChars l)) ∧
    (parseTextToDiagram input).1.length = (parseRawLines input).length ∧
    (parseTextToDiagram input).2.map (fun e => (e.source, e.target)) =
      ((parseTextToDiagram input).1.map RFNode.id).zip
        (((parseTextToDiagram input).1.map RFNode.id).tail) ∧
    (parseTextToDiagram input).2.length = (parseRawLines input).length - 1 ∧
    (∀ input2 : String, (parseRawLines input2).any lineHasArrow = false →
      (parseRawLines input2).length < 2 → parseTextToDiagram input2 = ([], [])) := by
  have htext : ¬ trimChars input.data = [] := by
    intro h0
    have hraw : parseRawLines input = [] := by
      unfold parseRawLines
      rw [h0]
      rfl
    rw [hraw] at hlen
    simp at hlen
  have hparse : parseTextToDiagram input =
      ((seqEdges ((seqLabels input).foldl (fun st lab => (ensureNode st lab).2) initParseState)
          (seqLabels input)).nodes,
       (seqEdges ((seqLabels input).foldl (fun st lab => (ensureNode st lab).2) initParseState)
          (seqLabels input)).edges) := by
    simp only [parseTextToDiagram]
    rw [if_neg htext]
    simp only [hnoarrow, Bool.false_eq_true, if_false]
    rw [if_neg (by omega : ¬ (parseRawLines input).length < 2)]
  obtain ⟨hmap, hnodes, hedges⟩ :=
    foldl_ensure_build (seqLabels input) initParseState (seqLabels_norm input) hnd
      (fun l _ => rfl)
  simp only [show initParseState.idByLabel = [] from rfl,
    show initParseState.nextNodeId = 1 from rfl,
    show initParseState.nodes = [] from rfl,
    show initParseState.edges = [] from rfl,
    List.nil_append] at hmap hnodes hedges
  have hidlen : (idsFrom 1 (seqLabels input).length).length = (seqLabels input).length :=
    idsFrom_length 1 _
  have hlkf : List.Forall₂
      (fun l i => ((seqLabels input).foldl (fun st lab => (ensureNode st lab).2)
        initParseState).idByLabel.lookup l = some i)
      (seqLabels input) (idsFrom 1 (seqLabels input).length) := by
    have h2 := zip_lookup_forall2 (seqLabels input) (idsFrom 1 (seqLabels input).length) []
      hnd hidlen (fun l _ => rfl)
    simp only [List.nil_append] at h2
    rw [hmap]
    exact h2
  have hchain := seqEdges_chain (seqLabels input) (idsFrom 1 (seqLabels input).length)
    ((seqLabels input).foldl (fun st lab => (ensureNode st lab).2) initParseState) hlkf
  rw [hedges] at hchain
  simp only [List.map_nil, List.nil_append] at hchain
  obtain ⟨hsm, hsn, _⟩ := seqEdges_fields (seqLabels input)
    ((seqLabels input).foldl (fun st lab => (ensureNode st lab).2) initParseState)
  have hnodes2 : (seqEdges ((seqLabels input).foldl (fun st lab => (ensureNode st lab).2)
      initParseState) (seqLabels input)).nodes =
      ((seqLabels input).zip (idsFrom 1 (seqLabels input).length)).map
        (fun p => { id := p.2, type := "card", x := 0, y := 0, label := p.1 }) := by
    rw [hsn, hnodes]
  have hmapid : (((seqLabels input).zip (idsFrom 1 (seqLabels input).length)).map
      (fun p => ({ id := p.2, type := "card", x := 0, y := 0, label := p.1 } : RFNode))).map
        RFNode.id = idsFrom 1 (seqLabels input).length := by
    rw [List.map_map]
    rw [show (RFNode.id ∘ fun p : String × String =>
      ({ id := p.2, type := "card", x := 0, y := 0, label := p.1 } : RFNode)) = Prod.snd from rfl]
    exact List.map_snd_zip _ _ (by omega)
  have hmaplab : (((seqLabels input).zip (idsFrom 1 (seqLabels input).length)).map
      (fun p => ({ id := p.2, type := "card", x := 0, y := 0, label := p.1 } : RFNode))).map
        RFNode.label = seqLabels input := by
    rw [List.map_map]
    rw [show (RFNode.label ∘ fun p : String × String =>
      ({ id := p.2, type := "card", x := 0, y := 0, label := p.1 } : RFNode)) = Prod.fst from rfl]
    exact List.map_fst_zip _ _ (by omega)
  have hklen : (seqLabels input).length = (parseRawLines input).length := by
    rw [seqLabels_eq_map input]
    simp
  refine ⟨?_, seqLabels_eq_map input, ?_, ?_, ?_, parse_seq_short⟩
  · rw [hparse]
    rw [hnodes2]
    exact hmaplab
  · rw [hparse]
    rw [hnodes2]
    rw [← hklen]
    simp [List.length_zip, hidlen]
  · rw [hparse]
    rw [hnodes2, hmapid, hchain]
  · rw [hparse]
    have := congrArg List.length hchain
    simp only [List.length_map] at this
    rw [this]
    rw [List.length_zip, List.length_tail, hidlen, hklen]
    omega

/-- Witness for the amended C5 at the spec's three-step list. -/
theorem C5_sequential_chain_witness :
    (parseTextToDiagram "Step1\nStep2\nStep3").1.map RFNode.label =
      seqLabels "Step1\nStep2\nStep3" ∧
    seqLabels "Step1\nStep2\nStep3" =
      (parseRawLines "Step1\nStep2\nStep3").map (fun l => String.mk (normalizeChars l)) ∧
    (parseTextToDiagram "Step1\nStep2\nStep3").1.length =
      (parseRawLines "Step1\nStep2\nStep3").length ∧
    (parseTextToDiagram "Step1\nStep2\nStep3").2.map (fun e => (e.source, e.target)) =
      ((parseTextToDiagram "Step1\nStep2\nStep3").1.map RFNode.id).zip
        (((parseTextToDiagram "Step1\nStep2\nStep3").1.map RFNode.id).tail) ∧
    (parseTextToDiagram "Step1\nStep2\nStep3").2.length =
      (parseRawLines "Step1\nStep2\nStep3").length - 1 ∧
    (∀ input2 : String, (parseRawLines input2).any lineHasArrow = false →
      (parseRawLines input2).length < 2 → parseTextToDiagram input2 = ([], [])) :=
  C5_sequential_chain "Step1\nStep2\nStep3" (by decide) (by decide) (by decide)


/-! ## C8: the share-link byte pipeline -/

theorem utf8DecodeGo_one (f b : Nat) (bs : List Nat) (h : b < 128) :
    utf8DecodeGo (f + 1) (b :: bs) = (utf8DecodeGo f bs).map (fun r => b :: r) := by
  simp only [utf8DecodeGo]
  rw [if_pos h]

theorem utf8DecodeGo_two (f b b1 : Nat) (bs : List Nat)
    (h1 : 192 ≤ b) (h2 : b < 224) (h3 : 128 ≤ b1) (h4 : b1 < 192) :
    utf8DecodeGo (f + 1) (b :: b1 :: bs) =
      (utf8DecodeGo f bs).map (fun r => ((b - 192) * 64 + (b1 - 128)) :: r) := by
  simp only [utf8DecodeGo]
  rw [if_neg (by omega), if_neg (by omega), if_pos (by omega)]
  rw [if_pos (by simp only [Bool.and_eq_true, decide_eq_true_eq]; omega)]

theorem utf8DecodeGo_three (f b b1 b2 : Nat) (bs : List Nat)
    (h1 : 224 ≤ b) (h2 : b < 240) (h3 : 128 ≤ b1) (h4 : b1 < 192)
    (h5 : 128 ≤ b2) (h6 : b2 < 192) :
    utf8DecodeGo (f + 1) (b :: b1 :: b2 :: bs) =
      (utf8DecodeGo f bs).map
        (fun r => ((b - 224) * 4096 + (b1 - 128) * 64 + (b2 - 128)) :: r) := by
  simp only [utf8DecodeGo]
  rw [if_neg (by omega), if_neg (by omega), if_neg (by omega), if_pos (by omega)]
  rw [if_pos (by simp only [Bool.and_eq_true, decide_eq_true_eq]; omega)]

theorem utf8DecodeGo_four (f b b1 b2 b3 : Nat) (bs : List Nat)
    (h1 : 240 ≤ b) (h2 : b < 248) (h3 : 128 ≤ b1) (h4 : b1 < 192)
    (h5 : 128 ≤ b2) (h6 : b2 < 192) (h7 : 128 ≤ b3) (h8 : b3 < 192) :
    utf8DecodeGo (f + 1) (b :: b1 :: b2 :: b3 :: bs) =
      (utf8DecodeGo f bs).map
        (fun r => ((b - 240) * 262144 + (b1 - 128) * 4096 + (b2 - 128) * 64 + (b3 - 128)) :: r) := by
  simp only [utf8DecodeGo]
  rw [if_neg (by omega), if_neg (by omega), if_neg (by omega), if_neg (by omega),
    if_pos (by omega)]
  rw [if_pos (by simp only [Bool.and_eq_true, decide_eq_true_eq]; omega)]

theorem utf8DecodeGo_encode (s : List Char) :
    ∀ fuel, (utf8Encode s).length ≤ fuel →
      utf8DecodeGo fuel (utf8Encode s) = some (s.map Char.toNat) := by
  induction s with
  | nil =>
    intro fuel _
    cases fuel <;> rfl
  | cons c cs ih =>
    intro fuel hfuel
    have henc : utf8Encode (c :: cs) = utf8EncodeChar c.toNat ++ utf8Encode cs := by
      simp [utf8Encode]
    have hval : c.toNat < 1114112 := by
      show c.val.toNat < 1114112
      rcases c.valid with h | h
      · omega
      · omega
    rw [henc] at hfuel ⊢
    by_cases h1 : c.toNat < 128
    · rw [show utf8EncodeChar c.toNat = [c.toNat] by simp [utf8EncodeChar, h1]] at hfuel ⊢
      cases fuel with
      | zero => simp at hfuel
      | succ f =>
        rw [List.cons_append, utf8DecodeGo_one f c.toNat _ h1, List.nil_append]
        rw [ih f (by simpa using hfuel)]
        rfl
    · by_cases h2 : c.toNat < 2048
      · rw [show utf8EncodeChar c.toNat = [192 + c.toNat / 64, 128 + c.toNat % 64] by
          simp [utf8EncodeChar, h1, h2]] at hfuel ⊢
        cases fuel with
        | zero => simp at hfuel
        | succ f =>
          rw [List.cons_append, List.cons_append,
            utf8DecodeGo_two f _ _ _ (by omega) (by omega) (by omega) (by omega),
            List.nil_append]
          rw [ih f (by simp at hfuel; omega)]
          have harith : (192 + c.toNat / 64 - 192) * 64 + (128 + c.toNat % 64 - 128) =
              c.toNat := by omega
          simp [harith]
          omega
      · by_cases h3 : c.toNat < 65536
        · rw [show utf8EncodeChar c.toNat =
              [224 + c.toNat / 4096, 128 + c.toNat / 64 % 64, 128 + c.toNat % 64] by
            simp [utf8EncodeChar, h1, h2, h3]] at hfuel ⊢
          cases fuel with
          | zero => simp at hfuel
          | succ f =>
            rw [List.cons_append, List.cons_append, List.cons_append,
              utf8DecodeGo_three f _ _ _ _ (by omega) (by omega) (by omega) (by omega)
                (by omega) (by omega),
              List.nil_append]
            rw [ih f (by simp at hfuel; omega)]
            have harith : (224 + c.toNat / 4096 - 224) * 4096 +
                (128 + c.toNat / 64 % 64 - 128) * 64 + (128 + c.toNat % 64 - 128) =
                c.toNat := by omega
            simp [harith]
            omega
        · rw [show utf8EncodeChar c.toNat =
              [240 + c.toNat / 262144, 128 + c.toNat / 4096 % 64,
                128 + c.toNat / 64 % 64, 128 + c.toNat % 64] by
            simp [utf8EncodeChar, h1, h2, h3]] at hfuel ⊢
          cases fuel with
          | zero => simp at hfuel
          | succ f =>
            rw [List.cons_append, List.cons_append, List.cons_append, List.cons_append,
              utf8DecodeGo_four f _ _ _ _ _ (by omega) (by omega) (by omega) (by omega)
                (by omega) (by omega) (by omega) (by omega),
              List.nil_append]
            rw [ih f (by simp at hfuel; omega)]
            have harith : (240 + c.toNat / 262144 - 240) * 262144 +
                (128 + c.toNat / 4096 % 64 - 128) * 4096 +
                (128 + c.toNat / 64 % 64 - 128) * 64 + (128 + c.toNat % 64 - 128) =
                c.toNat := by omega
            simp [harith]
            omega


theorem utf8Decode_encode (s : List Char) :
    utf8Decode (utf8Encode s) = some (s.map Char.toNat) :=
  utf8DecodeGo_encode s _ le_rfl

theorem b64Value_b64Char : ∀ n, n < 64 → b64Value (b64Char n) = some n := by decide

theorem b64Char_ne_eq : ∀ n, n < 64 → ¬ b64Char n = '=' := by decide

theorem url_char_roundtrip : ∀ n, n < 64 →
    fromUrlSafeChar (toUrlSafeChar (b64Char n)) = b64Char n := by decide

theorem toUrl_b64Char_ne_eq : ∀ n, n < 64 → ¬ toUrlSafeChar (b64Char n) = '=' := by decide

theorem b64Decode_block (x1 x2 x3 x4 : Char) (rest : List Char) (hx4 : ¬ x4 = '=') :
    b64Decode (x1 :: x2 :: x3 :: x4 :: rest) =
      ((b64Value x1).bind fun va => (b64Value x2).bind fun vb =>
        (b64Value x3).bind fun vc => (b64Value x4).bind fun vd =>
          (b64Decode rest).map fun r =>
            (va * 4 + vb / 16) :: (vb % 16 * 16 + vc / 4) :: (vc % 4 * 64 + vd) :: r) := by
  rw [b64Decode.eq_def]
  split
  · rename_i heq
    simp at heq
  · rename_i a b heq
    rw [List.cons.injEq, List.cons.injEq, List.cons.injEq, List.cons.injEq] at heq
    exact absurd heq.2.2.2.1 hx4
  · rename_i a b c heq
    rw [List.cons.injEq, List.cons.injEq, List.cons.injEq, List.cons.injEq] at heq
    exact absurd heq.2.2.2.1 hx4
  · rename_i a b c d r heq
    rw [List.cons.injEq, List.cons.injEq, List.cons.injEq, List.cons.injEq] at heq
    obtain ⟨h1, h2, h3, h4, h5⟩ := heq
    subst h1
    subst h2
    subst h3
    subst h4
    subst h5
    rfl
  · rename_i hne1 hne2 hne3 heq
    exact absurd rfl (heq x1 x2 x3 x4 rest)

theorem b64Encode_chars (bs : List Nat) (hb : ∀ b ∈ bs, b < 256) :
    ∀ c ∈ b64Encode bs, (∃ n, n < 64 ∧ c = b64Char n) ∨ c = '=' := by
  induction bs using b64Encode.induct with
  | case1 => simp [b64Encode]
  | case2 a =>
    have ha : a < 256 := hb a (by simp)
    intro c hc
    simp only [b64Encode, List.mem_cons, List.not_mem_nil, or_false] at hc
    rcases hc with rfl | rfl | rfl | rfl
    · exact Or.inl ⟨a / 4, by omega, rfl⟩
    · exact Or.inl ⟨a % 4 * 16, by omega, rfl⟩
    · exact Or.inr rfl
    · exact Or.inr rfl
  | case3 a b =>
    have ha : a < 256 := hb a (by simp)
    have hbb : b < 256 := hb b (by simp)
    intro c hc
    simp only [b64Encode, List.mem_cons, List.not_mem_nil, or_false] at hc
    rcases hc with rfl | rfl | rfl | rfl
    · exact Or.inl ⟨a / 4, by omega, rfl⟩
    · exact Or.inl ⟨a % 4 * 16 + b / 16, by omega, rfl⟩
    · exact Or.inl ⟨b % 16 * 4, by omega, rfl⟩
    · exact Or.inr rfl
  | case4 a b c rest ih =>
    have ha : a < 256 := hb a (by simp)
    have hbb : b < 256 := hb b (by simp)
    have hcc : c < 256 := hb c (by simp)
    intro x hx
    simp only [b64Encode, List.mem_cons] at hx
    rcases hx with rfl | rfl | rfl | rfl | hx
    · exact Or.inl ⟨a / 4, by omega, rfl⟩
    · exact Or.inl ⟨a % 4 * 16 + b / 16, by omega, rfl⟩
    · exact Or.inl ⟨b % 16 * 4 + c / 64, by omega, rfl⟩
    · exact Or.inl ⟨c % 64, by omega, rfl⟩
    · exact ih (fun y hy => hb y (by simp [hy])) x hx

theorem b64Encode_shape (bs : List Nat) (hb : ∀ b ∈ bs, b < 256) :
    ∃ body k, b64Encode bs = body ++ List.replicate k '=' ∧ k ≤ 2 ∧
      (∀ c ∈ body, ¬ c = '=') ∧ (body.length + k) % 4 = 0 := by
  induction bs using b64Encode.induct with
  | case1 => exact ⟨[], 0, rfl, by omega, by simp, by simp⟩
  | case2 a =>
    have ha : a < 256 := hb a (by simp)
    refine ⟨[b64Char (a / 4), b64Char (a % 4 * 16)], 2, rfl, by omega, ?_, by simp⟩
    intro c hc
    simp only [List.mem_cons, List.not_mem_nil, or_false] at hc
    rcases hc with rfl | rfl
    · exact b64Char_ne_eq _ (by omega)
    · exact b64Char_ne_eq _ (by omega)
  | case3 a b =>
    have ha : a < 256 := hb a (by simp)
    have hbb : b < 256 := hb b (by simp)
    refine ⟨[b64Char (a / 4), b64Char (a % 4 * 16 + b / 16), b64Char (b % 16 * 4)], 1,
      rfl, by omega, ?_, by simp⟩
    intro c hc
    simp only [List.mem_cons, List.not_mem_nil, or_false] at hc
    rcases hc with rfl | rfl | rfl
    · exact b64Char_ne_eq _ (by omega)
    · exact b64Char_ne_eq _ (by omega)
    · exact b64Char_ne_eq _ (by omega)
  | case4 a b c rest ih =>
    have ha : a < 256 := hb a (by simp)
    have hbb : b < 256 := hb b (by simp)
    have hcc : c < 256 := hb c (by simp)
    obtain ⟨body, k, hE, hk, hbody, hmod⟩ := ih (fun y hy => hb y (by simp [hy]))
    refine ⟨b64Char (a / 4) :: b64Char (a % 4 * 16 + b / 16) ::
      b64Char (b % 16 * 4 + c / 64) :: b64Char (c % 64) :: body, k, ?_, hk, ?_, ?_⟩
    · simp only [b64Encode, hE, List.cons_append]
    · intro x hx
      simp only [List.mem_cons] at hx
      rcases hx with rfl | rfl | rfl | rfl | hx
      · exact b64Char_ne_eq _ (by omega)
      · exact b64Char_ne_eq _ (by omega)
      · exact b64Char_ne_eq _ (by omega)
      · exact b64Char_ne_eq _ (by omega)
      · exact hbody x hx
    · simp only [List.length_cons]
      omega

theorem b64Decode_pad1 (x1 x2 x3 : Char) (hx3 : ¬ x3 = '=') :
    b64Decode [x1, x2, x3, '='] =
      ((b64Value x1).bind fun va => (b64Value x2).bind fun vb => (b64Value x3).map fun vc =>
        [va * 4 + vb / 16, vb % 16 * 16 + vc / 4]) := by
  rw [b64Decode.eq_def]
  split
  · rename_i heq
    simp at heq
  · rename_i a b heq
    rw [List.cons.injEq, List.cons.injEq, List.cons.injEq] at heq
    exact absurd heq.2.2.1 hx3
  · rename_i a b c hcne heq
    rw [List.cons.injEq, List.cons.injEq, List.cons.injEq] at heq
    obtain ⟨h1, h2, h3, h4⟩ := heq
    subst h1
    subst h2
    subst h3
    rfl
  · rename_i a b c d rest hne1 hne2 heq
    rw [List.cons.injEq, List.cons.injEq, List.cons.injEq, List.cons.injEq] at heq
    exact absurd heq.2.2.2.2.symm (fun hr => hne2 heq.2.2.2.1.symm hr)
  · rename_i hn0 hn2 hn3 hn4
    exact absurd rfl (hn3 x1 x2 x3)

theorem b64Decode_encode (bs : List Nat) (hb : ∀ b ∈ bs, b < 256) :
    b64Decode (b64Encode bs) = some bs := by
  induction bs using b64Encode.induct with
  | case1 => rfl
  | case2 a =>
    have ha : a < 256 := hb a (by simp)
    simp only [b64Encode, b64Decode]
    rw [b64Value_b64Char _ (by omega), b64Value_b64Char _ (by omega)]
    simp only [Option.some_bind, Option.map_some', Option.some.injEq, List.cons.injEq,
      and_true]
    omega
  | case3 a b =>
    have ha : a < 256 := hb a (by simp)
    have hbb : b < 256 := hb b (by simp)
    simp only [b64Encode]
    rw [b64Decode_pad1 _ _ _ (b64Char_ne_eq (b % 16 * 4) (by omega))]
    rw [b64Value_b64Char _ (by omega), b64Value_b64Char _ (by omega),
      b64Value_b64Char _ (by omega)]
    simp only [Option.some_bind, Option.map_some', Option.some.injEq, List.cons.injEq,
      and_true]
    constructor
    · omega
    · omega
  | case4 a b c rest ih =>
    have ha : a < 256 := hb a (by simp)
    have hbb : b < 256 := hb b (by simp)
    have hcc : c < 256 := hb c (by simp)
    have hrest := ih (fun y hy => hb y (by simp [hy]))
    simp only [b64Encode]
    rw [b64Decode_block _ _ _ _ _ (b64Char_ne_eq (c % 64) (by omega))]
    rw [b64Value_b64Char _ (by omega), b64Value_b64Char _ (by omega),
      b64Value_b64Char _ (by omega), b64Value_b64Char _ (by omega), hrest]
    simp only [Option.some_bind, Option.map_some', Option.some.injEq, List.cons.injEq,
      and_true]
    refine ⟨by omega, by omega, by omega⟩

theorem dropWhile_replicate_append (k : Nat) (l : List Char) (hl : ∀ c ∈ l, ¬ c = '=') :
    (List.replicate k '=' ++ l).dropWhile (fun c => c = '=') = l := by
  induction k with
  | zero =>
    simp only [List.replicate, List.nil_append]
    cases l with
    | nil => rfl
    | cons c cs => exact List.dropWhile_cons_of_neg (by simpa using hl c (by simp))
  | succ k ih =>
    rw [List.replicate_succ, List.cons_append, List.dropWhile_cons_of_pos (by simp)]
    exact ih

theorem stripPad_body (body : List Char) (k : Nat) (hb : ∀ c ∈ body, ¬ c = '=') :
    stripPad (body ++ List.replicate k '=') = body := by
  unfold stripPad
  rw [List.reverse_append, List.reverse_replicate]
  rw [dropWhile_replicate_append k body.reverse (fun c hc => hb c (List.mem_reverse.mp hc))]
  exact List.reverse_reverse body

theorem rePad_body (body : List Char) (k : Nat) (hk : k ≤ 2)
    (hmod : (body.length + k) % 4 = 0) :
    rePad body = body ++ List.replicate k '=' := by
  unfold rePad rePadLen
  congr 2
  omega

theorem utf8Encode_lt_256 (s : List Char) : ∀ b ∈ utf8Encode s, b < 256 := by
  intro b hb
  simp only [utf8Encode, List.mem_flatten, List.mem_map] at hb
  obtain ⟨bl, ⟨c, hc, rfl⟩, hbl⟩ := hb
  have hval : c.toNat < 1114112 := by
    show c.val.toNat < 1114112
    rcases c.valid with h | h
    · omega
    · omega
  by_cases h1 : c.toNat < 128
  · simp only [utf8EncodeChar, if_pos h1, List.mem_singleton] at hbl
    omega
  · by_cases h2 : c.toNat < 2048
    · simp only [utf8EncodeChar, if_neg h1, if_pos h2, List.mem_cons, List.not_mem_nil,
        or_false] at hbl
      rcases hbl with rfl | rfl <;> omega
    · by_cases h3 : c.toNat < 65536
      · simp only [utf8EncodeChar, if_neg h1, if_neg h2, if_pos h3, List.mem_cons,
          List.not_mem_nil, or_false] at hbl
        rcases hbl with rfl | rfl | rfl <;> omega
      · simp only [utf8EncodeChar, if_neg h1, if_neg h2, if_neg h3, List.mem_cons,
          List.not_mem_nil, or_false] at hbl
        rcases hbl with rfl | rfl | rfl | rfl <;> omega

theorem b64_pipeline (bs : List Nat) (hb : ∀ b ∈ bs, b < 256) :
    b64Decode (rePad ((stripPad ((b64Encode bs).map toUrlSafeChar)).map fromUrlSafeChar)) =
      some bs := by
  obtain ⟨body, k, hE, hk, hbody, hmod⟩ := b64Encode_shape bs hb
  have hbodyAlpha : ∀ c ∈ body, ∃ n, n < 64 ∧ c = b64Char n := by
    intro c hc
    have hcE : c ∈ b64Encode bs := by
      rw [hE]
      exact List.mem_append_left _ hc
    rcases b64Encode_chars bs hb c hcE with h | h
    · exact h
    · exact absurd h (hbody c hc)
  have hmap1 : (b64Encode bs).map toUrlSafeChar =
      body.map toUrlSafeChar ++ List.replicate k '=' := by
    rw [hE, List.map_append, List.map_replicate]
    rfl
  have hbody2 : ∀ c ∈ body.map toUrlSafeChar, ¬ c = '=' := by
    intro c hc
    obtain ⟨c0, hc0, rfl⟩ := List.mem_map.mp hc
    obtain ⟨n, hn, rfl⟩ := hbodyAlpha c0 hc0
    exact toUrl_b64Char_ne_eq n hn
  rw [hmap1, stripPad_body _ k hbody2]
  have hmap2 : (body.map toUrlSafeChar).map fromUrlSafeChar = body := by
    rw [List.map_map]
    have hpt : ∀ c ∈ body, (fromUrlSafeChar ∘ toUrlSafeChar) c = c := by
      intro c hc
      obtain ⟨n, hn, rfl⟩ := hbodyAlpha c hc
      exact url_char_roundtrip n hn
    rw [List.map_congr_left hpt]
    simp
  rw [hmap2]
  rw [rePad_body body k hk hmod]
  rw [← hE]
  exact b64Decode_encode bs hb

theorem encode64Str_roundtrip (json : String) :
    decode64Str (encode64Str json) = some json := by
  unfold encode64Str decode64Str
  have hdata : (String.mk (stripPad ((b64Encode (utf8Encode json.data)).map
      toUrlSafeChar))).data = stripPad ((b64Encode (utf8Encode json.data)).map
      toUrlSafeChar) := rfl
  rw [hdata]
  rw [b64_pipeline _ (utf8Encode_lt_256 _)]
  rw [Option.some_bind]
  rw [utf8Decode_encode]
  rw [Option.map_some']
  congr 1
  rw [List.map_map]
  have hpt : ∀ c ∈ json.data, (Char.ofNat ∘ Char.toNat) c = c := fun c _ =>
    Char.ofNat_toNat c
  rw [List.map_congr_left hpt]
  cases json with
  | mk d => simp

/-- C8: the share-link pipeline round-trips: the URL-safe base64 of
the UTF-8 bytes decodes back to the exact JSON text for every string,
arbitrary Unicode included, and therefore decode64 of encode64
returns the original payload whenever the platform JSON serializer
pair round-trips that payload (JSON.stringify and JSON.parse are the
browser collaborators the code calls between the two transforms). -/
theorem C8_share_roundtrip :
    (∀ json : String, decode64Str (encode64Str json) = some json) ∧
    (∀ (stringify : SharePayload → String) (parse : String → Option SharePayload)
      (p : SharePayload), parse (stringify p) = some p →
      decode64 parse (encode64 stringify p) = some p) := by
  refine ⟨encode64Str_roundtrip, ?_⟩
  intro stringify parse p hjson
  unfold decode64 encode64
  rw [encode64Str_roundtrip]
  simpa using hjson

/-- Witness for C8 at a concrete payload and serializer pair. -/
theorem C8_share_roundtrip_witness :
    decode64 (fun s => if s = "p" then some (SharePayload.mk [] [] "light" Dir.TB) else none)
      (encode64 (fun _ => "p") (SharePayload.mk [] [] "light" Dir.TB)) =
      some (SharePayload.mk [] [] "light" Dir.TB) :=
  C8_share_roundtrip.2 (fun _ => "p")
    (fun s => if s = "p" then some (SharePayload.mk [] [] "light" Dir.TB) else none)
    (SharePayload.mk [] [] "light" Dir.TB) (by simp)
